import Mathlib

set_option maxHeartbeats 1000000
set_option autoImplicit false

/-
Shallow embedding of the priority-ordered span-highlighting engine and the
log-level plumbing of src/log.rs.

Text is modelled as a list of characters; the byte offsets of the Rust
regex engine become character offsets (they coincide on ASCII input).
The regex character classes \d, \w and the word boundary \b are modelled
with their ASCII semantics; each of the five cached regexes of
`RegexCache` is translated into a deterministic scanner that follows the
leftmost-first matching discipline of the `regex` crate, and `find_iter`
into a driver that restarts after the end of each match.
-/

abbrev Text := List Char

def escChar : Char := Char.ofNat 27

def lbraceChar : Char := Char.ofNat 123

def rbraceChar : Char := Char.ofNat 125

/-- Regex class `\w` (ASCII fragment): letters, digits, underscore. -/
def isWordChar (c : Char) : Bool := c.isAlphanum || c = '_'

/-- Whether the character preceding a match position is a word character
(`none` models the start of the haystack). -/
def prevIsWord : Option Char → Bool
  | none => false
  | some c => isWordChar c

/-- Character just before offset `i` of the haystack. -/
def prevOf (text : Text) (i : Nat) : Option Char :=
  if i = 0 then none else text.get? (i - 1)

/-- Tail of the regex `\x1b\[[0-9;]*[a-zA-Z]` after `\x1b[`: a run of
parameter characters followed by one letter.  The two classes are
disjoint, so the scan is deterministic. -/
def ansiParamTail : Text → Option Nat
  | [] => none
  | c :: rest =>
    if c.isDigit || c = ';' then (ansiParamTail rest).map (· + 1)
    else if c.isAlpha then some 1
    else none

/-- Match of `RegexCache.ansi` (`\x1b\[[0-9;]*[a-zA-Z]`) anchored at the
start of the given suffix, returning the match length. -/
def ansiMatchAt : Text → Option Nat
  | a :: b :: rest =>
    if a = escChar && b = '[' then (ansiParamTail rest).map (· + 2) else none
  | _ => none

/-- `contains_ansi_codes`: `cache.ansi.is_match(text)`. -/
def contains_ansi_codes : Text → Bool
  | [] => false
  | c :: rest => (ansiMatchAt (c :: rest)).isSome || contains_ansi_codes rest

/-- Body of a quoted literal after its opening quote `q`, for the regex
alternative `q[^q\\]*(?:\\.[^q\\]*)*q`; returns the number of characters
consumed including the closing quote.  `\\.` does not match a newline
(regex `.`), and the parse is deterministic because `[^q\\]` excludes
both the quote and the backslash. -/
def stringBody (q : Char) : Text → Option Nat
  | [] => none
  | [c] => if c = q then some 1 else none
  | c :: d :: rest =>
    if c = q then some 1
    else if c = '\\' then
      if d = '\n' then none else (stringBody q rest).map (· + 2)
    else (stringBody q (d :: rest)).map (· + 1)

/-- Match of `RegexCache.string` anchored at the start of the suffix. -/
def stringMatchAt : Text → Option Nat
  | [] => none
  | c :: rest =>
    if c = '"' then (stringBody '"' rest).map (· + 1)
    else if c = '\'' then (stringBody '\'' rest).map (· + 1)
    else none

/-- Length of the maximal run of `\d` characters at the head. -/
def digitRun : Text → Nat
  | [] => 0
  | c :: rest => if c.isDigit then digitRun rest + 1 else 0

/-- `\b` at a position whose preceding character is a word character:
holds at end of haystack or before a non-word character. -/
def boundaryAfterWord : Text → Bool
  | [] => true
  | c :: _ => ! isWordChar c

/-- `\b` at a position whose preceding character is `.` (non-word):
holds exactly before a word character. -/
def boundaryAfterDot : Text → Bool
  | [] => false
  | c :: _ => isWordChar c

/-- Continuation of the regex `\b\d+\.?\d*\b` after the maximal digit run
of length `d1`, applied to the remaining suffix.  The case analysis
reproduces the backtracking order of the leftmost-first engine:
greedy `\.?` and `\d*`, retrying shorter suffixes until `\b` holds. -/
def numberAfterDigits (d1 : Nat) (u : Text) : Option Nat :=
  match u with
  | [] => some d1
  | c :: t2 =>
    if c = '.' then
      let d2 := digitRun t2
      if 0 < d2 then
        if boundaryAfterWord (t2.drop d2) then some (d1 + 1 + d2) else some (d1 + 1)
      else
        if boundaryAfterDot t2 then some (d1 + 1) else some d1
    else if boundaryAfterWord (c :: t2) then some d1 else none

/-- Match of `RegexCache.number` (`\b\d+\.?\d*\b`) anchored at the start
of the suffix, given the preceding character. -/
def numberMatchAt (prev : Option Char) (t : Text) : Option Nat :=
  match t with
  | [] => none
  | c :: _ =>
    if ! c.isDigit then none
    else if prevIsWord prev then none
    else numberAfterDigits (digitRun t) (t.drop (digitRun t))

/-- The alternatives of `RegexCache.boolean`, in the order they appear in
the pattern `\b(true|false|null|undefined|None|nil)\b`. -/
def boolWords : List Text :=
  ["true".toList, "false".toList, "null".toList, "undefined".toList,
   "None".toList, "nil".toList]

/-- First alternative that matches at the head of `t` and is followed by
a word boundary (all alternatives end in a letter). -/
def boolAlt (t : Text) : List Text → Option Nat
  | [] => none
  | w :: ws =>
    if w.isPrefixOf t && boundaryAfterWord (t.drop w.length) then some w.length
    else boolAlt t ws

/-- Match of `RegexCache.boolean` anchored at the start of the suffix. -/
def booleanMatchAt (prev : Option Char) (t : Text) : Option Nat :=
  if prevIsWord prev then none else boolAlt t boolWords

/-- Length of the maximal run of `\w` characters at the head. -/
def wordRun : Text → Nat
  | [] => 0
  | c :: rest => if isWordChar c then wordRun rest + 1 else 0

/-- Match of `RegexCache.key` (`\b(\w+):`) anchored at the start of the
suffix: a maximal word run followed by a literal colon (a shorter run
cannot help, because the run consists of word characters only). -/
def keyMatchAt (prev : Option Char) (t : Text) : Option Nat :=
  match t with
  | [] => none
  | c :: _ =>
    if ! isWordChar c then none
    else if prevIsWord prev then none
    else
      match t.drop (wordRun t) with
      | c2 :: _ => if c2 = ':' then some (wordRun t + 1) else none
      | [] => none

/-- Character class of `RegexCache.bracket`. -/
def isBracketChar (c : Char) : Bool :=
  c = '[' || c = ']' || c = lbraceChar || c = rbraceChar || c = '(' || c = ')'

/-- Match of `RegexCache.bracket` anchored at the start of the suffix. -/
def bracketMatchAt : Text → Option Nat
  | [] => none
  | c :: _ => if isBracketChar c then some 1 else none

/-- `find_iter` driver: scan positions left to right, emit each leftmost
match and resume after its end.  `fuel` bounds the recursion; it is
initialised to more than the text length, which suffices because every
match of the five scanners is non-empty. -/
def findIterGo (matchAt : Option Char → Text → Option Nat) (text : Text) :
    Nat → Nat → List (Nat × Nat)
  | 0, _ => []
  | fuel + 1, i =>
    if i < text.length then
      match matchAt (prevOf text i) (text.drop i) with
      | some len => (i, i + len) :: findIterGo matchAt text fuel (i + len)
      | none => findIterGo matchAt text fuel (i + 1)
    else []

def findIter (matchAt : Option Char → Text → Option Nat) (text : Text) :
    List (Nat × Nat) :=
  findIterGo matchAt text (text.length + 1) 0

def stringMatches (text : Text) : List (Nat × Nat) :=
  findIter (fun _ t => stringMatchAt t) text

def numberMatches (text : Text) : List (Nat × Nat) :=
  findIter numberMatchAt text

def booleanMatches (text : Text) : List (Nat × Nat) :=
  findIter booleanMatchAt text

def keyMatches (text : Text) : List (Nat × Nat) :=
  findIter keyMatchAt text

def bracketMatches (text : Text) : List (Nat × Nat) :=
  findIter (fun _ t => bracketMatchAt t) text

/-- `\x1b[` followed by parameter characters and the final `m`. -/
def mkEsc (params : Text) : Text := escChar :: '[' :: (params ++ ['m'])

/-- The universal reset sequence `\x1b[0m`. -/
def resetSeq : Text := mkEsc ['0']

def wrapEsc (params w : Text) : Text := mkEsc params ++ w ++ resetSeq

/-- `format!("\x1b[92m{}\x1b[0m", mat.as_str())`. -/
def stringColor (w : Text) : Text := wrapEsc ['9', '2'] w

/-- `format!("\x1b[93m{}\x1b[0m", mat.as_str())`. -/
def numberColor (w : Text) : Text := wrapEsc ['9', '3'] w

/-- Bold `\x1b[93;1m` for `true`/`false`, dim `\x1b[90m` otherwise. -/
def booleanColor (w : Text) : Text :=
  if w = "true".toList || w = "false".toList then wrapEsc ['9', '3', ';', '1'] w
  else wrapEsc ['9', '0'] w

/-- `format!("\x1b[96m{}:\x1b[0m", key)` where `key` is capture group 1,
i.e. the match without its final colon. -/
def keyColor (w : Text) : Text := mkEsc ['9', '6'] ++ (w.dropLast ++ ':' :: resetSeq)

/-- `format!("\x1b[97m{}\x1b[0m", mat.as_str())`. -/
def bracketColor (w : Text) : Text := wrapEsc ['9', '7'] w

/-- One entry of the accepted-span table
`BTreeMap<usize, (usize, String, u8)>`: start offset, end offset,
colorized replacement, classifier priority. -/
structure SpanEntry where
  start : Nat
  stop : Nat
  repl : Text
  prio : Nat
deriving DecidableEq, Repr

/-- `BTreeMap::insert` keyed by `start`: keep the list sorted by start
offset, replacing an entry with an equal key. -/
def btInsert (en : SpanEntry) : List SpanEntry → List SpanEntry
  | [] => [en]
  | e0 :: rest =>
    if en.start < e0.start then en :: e0 :: rest
    else if en.start = e0.start then en :: rest
    else e0 :: btInsert en rest

/-- `is_inside_match`: scan the entries with key `<= start`
(`matches.range(..=start)`) and test `start < match_end && end > match_start`. -/
def is_inside_match (m : List SpanEntry) (s e : Nat) : Bool :=
  m.any fun en => decide (en.start ≤ s ∧ s < en.stop ∧ e > en.start)

/-- `&text[s..e]`. -/
def txtSlice (t : Text) (s e : Nat) : Text := (t.take e).drop s

/-- The priority-1 loop of `highlight_syntax`: strings are inserted
without an `is_inside_match` test. -/
def insertNoCheck (text : Text) (color : Text → Text) (p : Nat)
    (cs : List (Nat × Nat)) (m : List SpanEntry) : List SpanEntry :=
  cs.foldl (fun acc se =>
    btInsert ⟨se.1, se.2, color (txtSlice text se.1 se.2), p⟩ acc) m

/-- The priority-2..5 loops of `highlight_syntax`: a candidate is
inserted only when `is_inside_match` rejects it. -/
def insertChecked (text : Text) (color : Text → Text) (p : Nat)
    (cs : List (Nat × Nat)) (m : List SpanEntry) : List SpanEntry :=
  cs.foldl (fun acc se =>
    if is_inside_match acc se.1 se.2 then acc
    else btInsert ⟨se.1, se.2, color (txtSlice text se.1 se.2), p⟩ acc) m

/-- Raw matches of the classifier with priority `p`. -/
def stageMatches (p : Nat) (text : Text) : List (Nat × Nat) :=
  match p with
  | 1 => stringMatches text
  | 2 => numberMatches text
  | 3 => booleanMatches text
  | 4 => keyMatches text
  | 5 => bracketMatches text
  | _ => []

/-- Colorizer of the classifier with priority `p`. -/
def stageColor (p : Nat) (w : Text) : Text :=
  match p with
  | 1 => stringColor w
  | 2 => numberColor w
  | 3 => booleanColor w
  | 4 => keyColor w
  | 5 => bracketColor w
  | _ => w

/-- The accepted-span table of `highlight_syntax` after the loops of
priorities `1..=k`. -/
def mapAfter (text : Text) : Nat → List SpanEntry
  | 0 => []
  | 1 => insertNoCheck text stringColor 1 (stringMatches text) (mapAfter text 0)
  | k + 1 =>
    insertChecked text (stageColor (k + 1)) (k + 1) (stageMatches (k + 1) text)
      (mapAfter text k)

/-- The final accepted-span table (`matches` after all five loops). -/
def buildMatches (text : Text) : List SpanEntry := mapAfter text 5

/-- The result-building loop of `highlight_syntax`: copy the text between
spans verbatim, substitute each span's replacement, then the tail. -/
def render (text : Text) : Nat → List SpanEntry → Text
  | lastEnd, [] => text.drop lastEnd
  | lastEnd, en :: rest =>
    txtSlice text lastEnd en.start ++ en.repl ++ render text en.stop rest

/-- `highlight_syntax`. -/
def highlight_syntax (text : Text) : Text :=
  if text.isEmpty || contains_ansi_codes text then text
  else render text 0 (buildMatches text)

/-- Specification-side notion used by claim C3: remove every leftmost
non-overlapping match of the terminal-escape regex. -/
def stripAnsi : Text → Text
  | [] => []
  | c :: rest =>
    match ansiMatchAt (c :: rest) with
    | some len => stripAnsi (rest.drop (len - 1))
    | none => c :: stripAnsi rest
termination_by t => t.length
decreasing_by
  · simp only [List.length_drop, List.length_cons]
    omega
  · simp only [List.length_cons]
    omega

/-- Specification-side notion used by claim C7: the text contains the
control-introducer byte followed by `[`, parameter bytes and a final
letter somewhere. -/
def HasAnsiSeq (t : Text) : Prop :=
  ∃ pre mid c post, t = pre ++ escChar :: '[' :: (mid ++ c :: post) ∧
    (∀ d ∈ mid, d.isDigit = true ∨ d = ';') ∧ c.isAlpha = true

/-- The `highlighted_text` computation of the `log_impl` macro: lines
longer than 1000 units bypass highlighting. -/
def log_impl_highlighted_text (text : Text) : Text :=
  if 1000 < text.length then text else highlight_syntax text

inductive LogLevel where
  | Critical
  | Error
  | Warn
  | Info
  | Debug
deriving DecidableEq, Repr

/-- `LogLevel::from_u8`. -/
def LogLevel.from_u8 : Nat → Option LogLevel
  | 1 => some .Critical
  | 2 => some .Error
  | 3 => some .Warn
  | 4 => some .Info
  | 5 => some .Debug
  | _ => none

/-- `LogLevel::as_u8` (the `#[repr(u8)]` discriminants). -/
def LogLevel.as_u8 : LogLevel → Nat
  | .Critical => 1
  | .Error => 2
  | .Warn => 3
  | .Info => 4
  | .Debug => 5

/-- `LogLevel::from_str`: lowercase, then match the recognised names. -/
def LogLevel.from_str (s : Text) : Option LogLevel :=
  let t := s.map Char.toLower
  if t = "debug".toList then some .Debug
  else if t = "info".toList then some .Info
  else if t = "warn".toList || t = "warning".toList then some .Warn
  else if t = "error".toList then some .Error
  else if t = "critical".toList || t = "crit".toList then some .Critical
  else none

/-- Specification-side notion used by claim C9: the recognised level
names, case-insensitively. -/
def recognizedLevelName (s : Text) : Prop :=
  s.map Char.toLower ∈
    ["debug", "info", "warn", "warning", "error", "critical", "crit"].map
      String.toList

/-- `get_logging_level`: the stored `LEVEL` byte is passed explicitly;
`from_u8(...).unwrap_or(LogLevel::Info)`. -/
def get_logging_level (storedLevel : Nat) : LogLevel :=
  (LogLevel.from_u8 storedLevel).getD LogLevel.Info

/-- `set_logging_level`: store `level.as_u8()` into `LEVEL`. -/
def set_logging_level (l : LogLevel) (_storedLevel : Nat) : Nat := l.as_u8

/-- `set_logging_level_from_str`: parse, propagate the error without
touching `LEVEL`, otherwise store the parsed level. -/
def set_logging_level_from_str (s : Text) (storedLevel : Nat) :
    Except Unit Unit × Nat :=
  match LogLevel.from_str s with
  | none => (Except.error (), storedLevel)
  | some l => (Except.ok (), set_logging_level l storedLevel)

/-- The matches emitted by `find_iter` starting from offset `i`: each is
non-empty, starts at or after `i`, and each next match starts at or after
the previous end. -/
def ChainGE : Nat → List (Nat × Nat) → Prop
  | _, [] => True
  | i, (s, e) :: rest => i ≤ s ∧ s < e ∧ ChainGE e rest

/-- Parameter characters of a terminal escape sequence. -/
def paramsOk (params : Text) : Prop := ∀ c ∈ params, c.isDigit = true ∨ c = ';'

/-- Every replacement stored in the span table is an escape prefix, the
matched slice of the input, and the reset suffix. -/
def ReplShape (text : Text) (en : SpanEntry) : Prop :=
  ∃ pr, paramsOk pr ∧
    en.repl = mkEsc pr ++ txtSlice text en.start en.stop ++ resetSeq

/-- Invariant of the accepted-span table after the loops of priorities
`1..=l`. -/
structure MapInv (text : Text) (l : Nat) (m : List SpanEntry) : Prop where
  sorted : m.Pairwise fun a b => a.start < b.start
  wf : ∀ en ∈ m, en.start < en.stop
  bound : ∀ en ∈ m, en.stop ≤ text.length
  src : ∀ en ∈ m, 1 ≤ en.prio ∧ en.prio ≤ l ∧
    (en.start, en.stop) ∈ stageMatches en.prio text
  repl : ∀ en ∈ m, en.repl = stageColor en.prio (txtSlice text en.start en.stop)
  disj : m.Pairwise fun a b => a.stop ≤ b.start

/-- Sorted, non-overlapping, in-bounds entries with well-shaped
replacements, all starting at or after `lastEnd`: the precondition of the
rendering loop. -/
def ChainEntries (text : Text) : Nat → List SpanEntry → Prop
  | _, [] => True
  | lastEnd, en :: rest =>
    lastEnd ≤ en.start ∧ en.start < en.stop ∧ en.stop ≤ text.length ∧
      ReplShape text en ∧ ChainEntries text en.stop rest

/-! Basic list utilities used throughout the development. -/

theorem get?_drop' (t : Text) (n i : Nat) : (t.drop n).get? i = t.get? (n + i) := by
  simp [List.get?_eq_getElem?, List.getElem?_drop]

theorem get?_cons_succ' (c : Char) (t : Text) (i : Nat) :
    (c :: t).get? (i + 1) = t.get? i := rfl

theorem get?_of_drop_cons (t : Text) (n : Nat) (c : Char) (u : Text)
    (h : t.drop n = c :: u) : t.get? n = some c := by
  have h0 := get?_drop' t n 0
  rw [h] at h0
  simpa using h0.symm

theorem drop_succ_of_drop_cons (t : Text) (n : Nat) (c : Char) (u : Text)
    (h : t.drop n = c :: u) : t.drop (n + 1) = u := by
  have : (t.drop n).drop 1 = t.drop (n + 1) := by
    rw [List.drop_drop]
  rw [← this, h]
  rfl

theorem txtSlice_drop_eq (t : Text) (a b : Nat) (hab : a ≤ b) (hb : b ≤ t.length) :
    t.drop a = txtSlice t a b ++ t.drop b := by
  conv_lhs => rw [← List.take_append_drop b t]
  rw [List.drop_append_eq_append_drop]
  have hz : a - (t.take b).length = 0 := by
    simp only [List.length_take]
    omega
  rw [hz]
  simp [txtSlice]

theorem txtSlice_drop (t : Text) (a b p : Nat) :
    (txtSlice t a b).drop p = txtSlice t (a + p) b := by
  simp [txtSlice, List.drop_drop, Nat.add_comm]

theorem txtSlice_get? (t : Text) (a b i : Nat) (h : a + i < b) :
    (txtSlice t a b).get? i = t.get? (a + i) := by
  simp only [txtSlice, get?_drop']
  exact List.get?_take h

theorem txtSlice_length (t : Text) (a b : Nat) (hab : a ≤ b) (hb : b ≤ t.length) :
    (txtSlice t a b).length = b - a := by
  simp only [txtSlice, List.length_drop, List.length_take]
  omega

/-! Length bounds for the anchored scanners: every match is non-empty and
stays inside the scanned suffix. -/

theorem stringBody_le (q : Char) : ∀ (t : Text) (l : Nat),
    stringBody q t = some l → 1 ≤ l ∧ l ≤ t.length := by
  intro t
  induction t using stringBody.induct q with
  | case1 => intro l h; simp [stringBody] at h
  | case2 =>
    intro l h
    simp [stringBody] at h
    subst h
    simp
  | case3 c hc => intro l h; simp [stringBody, hc] at h
  | case4 d rest =>
    intro l h
    simp [stringBody] at h
    subst h
    simp only [List.length_cons]
    omega
  | case5 rest hq =>
    intro l h
    simp [stringBody, hq] at h
  | case6 d rest hd hq ih =>
    intro l h
    simp only [stringBody, if_neg hq, if_pos rfl, if_neg hd] at h
    obtain ⟨l', hl', rfl⟩ := Option.map_eq_some'.mp h
    have := ih l' hl'
    simp only [List.length_cons]
    omega
  | case7 c d rest hcq hcb ih =>
    intro l h
    simp only [stringBody, if_neg hcq, if_neg hcb] at h
    obtain ⟨l', hl', rfl⟩ := Option.map_eq_some'.mp h
    have := ih l' hl'
    simp only [List.length_cons] at *
    omega

theorem lt_length_of_get? (t : Text) (n : Nat) (c : Char) (h : t.get? n = some c) :
    n < t.length := by
  by_contra hn
  push_neg at hn
  rw [List.get?_eq_none.mpr hn] at h
  exact Option.noConfusion h

theorem get?_some_of_lt (t : Text) (n : Nat) (h : n < t.length) :
    ∃ c, t.get? n = some c := by
  rw [List.get?_eq_getElem?, List.getElem?_eq_getElem h]
  exact ⟨t[n], rfl⟩

theorem prefix_get? (w t : Text) (i : Nat) (hp : w <+: t) (hi : i < w.length) :
    t.get? i = w.get? i := by
  obtain ⟨r, rfl⟩ := hp
  simp only [List.get?_eq_getElem?]
  exact List.getElem?_append_left hi

theorem stringMatchAt_le (t : Text) (l : Nat) (h : stringMatchAt t = some l) :
    1 ≤ l ∧ l ≤ t.length := by
  match t with
  | [] => simp [stringMatchAt] at h
  | c :: rest =>
    simp only [stringMatchAt] at h
    split at h
    · obtain ⟨l', hl', rfl⟩ := Option.map_eq_some'.mp h
      have := stringBody_le '"' rest l' hl'
      simp only [List.length_cons]
      omega
    · split at h
      · obtain ⟨l', hl', rfl⟩ := Option.map_eq_some'.mp h
        have := stringBody_le '\'' rest l' hl'
        simp only [List.length_cons]
        omega
      · exact Option.noConfusion h

theorem stringMatchAt_head (t : Text) (l : Nat) (h : stringMatchAt t = some l) :
    ∃ c, t.get? 0 = some c ∧ (c = '"' ∨ c = '\'') := by
  match t with
  | [] => simp [stringMatchAt] at h
  | c :: rest =>
    simp only [stringMatchAt] at h
    split at h
    · exact ⟨c, rfl, Or.inl (by assumption)⟩
    · split at h
      · exact ⟨c, rfl, Or.inr (by assumption)⟩
      · exact Option.noConfusion h

theorem digitRun_le (t : Text) : digitRun t ≤ t.length := by
  induction t with
  | nil => simp [digitRun]
  | cons c rest ih =>
    simp only [digitRun, List.length_cons]
    split
    · omega
    · omega

theorem digitRun_get (t : Text) (i : Nat) (h : i < digitRun t) :
    ∃ c, t.get? i = some c ∧ c.isDigit = true := by
  induction t generalizing i with
  | nil => simp [digitRun] at h
  | cons c rest ih =>
    by_cases hc : c.isDigit
    · cases i with
      | zero => exact ⟨c, rfl, hc⟩
      | succ j =>
        have hj : j < digitRun rest := by
          simp only [digitRun, if_pos hc] at h
          omega
        obtain ⟨d, hd, hdd⟩ := ih j hj
        exact ⟨d, by simpa [get?_cons_succ'] using hd, hdd⟩
    · simp [digitRun, hc] at h

theorem digitRun_cons_pos (c : Char) (rest : Text) (hc : c.isDigit = true) :
    0 < digitRun (c :: rest) := by
  simp [digitRun, hc]

theorem wordRun_le (t : Text) : wordRun t ≤ t.length := by
  induction t with
  | nil => simp [wordRun]
  | cons c rest ih =>
    simp only [wordRun, List.length_cons]
    split
    · omega
    · omega

theorem wordRun_get (t : Text) (i : Nat) (h : i < wordRun t) :
    ∃ c, t.get? i = some c ∧ isWordChar c = true := by
  induction t generalizing i with
  | nil => simp [wordRun] at h
  | cons c rest ih =>
    by_cases hc : isWordChar c
    · cases i with
      | zero => exact ⟨c, rfl, hc⟩
      | succ j =>
        have hj : j < wordRun rest := by
          simp only [wordRun, if_pos hc] at h
          omega
        obtain ⟨d, hd, hdd⟩ := ih j hj
        exact ⟨d, by simpa [get?_cons_succ'] using hd, hdd⟩
    · simp [wordRun, hc] at h

theorem wordRun_cons_pos (c : Char) (rest : Text) (hc : isWordChar c = true) :
    0 < wordRun (c :: rest) := by
  simp [wordRun, hc]

theorem numberAfterDigits_range (d1 : Nat) (u : Text) (l : Nat)
    (h : numberAfterDigits d1 u = some l) : d1 ≤ l ∧ l ≤ d1 + u.length := by
  match u with
  | [] =>
    simp only [numberAfterDigits, Option.some.injEq] at h
    omega
  | c :: t2 =>
    simp only [numberAfterDigits] at h
    split at h
    · have hd2 := digitRun_le t2
      split at h
      · split at h <;> simp only [Option.some.injEq] at h <;>
          simp only [List.length_cons] <;> omega
      · split at h <;> simp only [Option.some.injEq] at h <;>
          simp only [List.length_cons] <;> omega
    · split at h
      · simp only [Option.some.injEq] at h
        simp only [List.length_cons]
        omega
      · exact Option.noConfusion h

theorem numberMatchAt_guards (prev : Option Char) (t : Text) (l : Nat)
    (h : numberMatchAt prev t = some l) :
    prevIsWord prev = false ∧ (∃ c, t.get? 0 = some c ∧ c.isDigit = true) ∧
      numberAfterDigits (digitRun t) (t.drop (digitRun t)) = some l := by
  match t with
  | [] => simp [numberMatchAt] at h
  | c :: rest =>
    simp only [numberMatchAt] at h
    split at h
    · exact Option.noConfusion h
    · split at h
      · exact Option.noConfusion h
      · refine ⟨by simpa using ‹¬prevIsWord prev = true›, ⟨c, rfl, by simpa using ‹¬(!c.isDigit) = true›⟩, h⟩

theorem numberMatchAt_le (prev : Option Char) (t : Text) (l : Nat)
    (h : numberMatchAt prev t = some l) : 1 ≤ l ∧ l ≤ t.length := by
  obtain ⟨-, ⟨c, hc, hcd⟩, hnum⟩ := numberMatchAt_guards prev t l h
  obtain ⟨hd1, hd2⟩ := numberAfterDigits_range _ _ _ hnum
  have hpos : 0 < digitRun t := by
    match t with
    | [] => simp at hc
    | c0 :: rest =>
      simp only [List.get?] at hc
      cases hc
      exact digitRun_cons_pos _ _ hcd
  have hle := digitRun_le t
  simp only [List.length_drop] at hd2
  omega

theorem numberMatchAt_content (prev : Option Char) (t : Text) (l : Nat)
    (h : numberMatchAt prev t = some l) :
    ∀ i, i < l → ∃ c, t.get? i = some c ∧ (c.isDigit = true ∨ c = '.') := by
  obtain ⟨-, -, hnum⟩ := numberMatchAt_guards prev t l h
  intro i hi
  rcases Nat.lt_or_ge i (digitRun t) with hlt | hge
  · obtain ⟨c, hc, hcd⟩ := digitRun_get t i hlt
    exact ⟨c, hc, Or.inl hcd⟩
  · cases hu : t.drop (digitRun t) with
    | nil =>
      rw [hu] at hnum
      simp only [numberAfterDigits, Option.some.injEq] at hnum
      omega
    | cons c t2 =>
      rw [hu] at hnum
      simp only [numberAfterDigits] at hnum
      split at hnum
      · rename_i hdot
        subst hdot
        have hdotget : t.get? (digitRun t) = some '.' := get?_of_drop_cons _ _ _ _ hu
        have ht2 : t.drop (digitRun t + 1) = t2 := drop_succ_of_drop_cons _ _ _ _ hu
        rcases Nat.eq_or_lt_of_le hge with heq | hgt
        · exact ⟨'.', by rw [← heq]; exact hdotget, Or.inr rfl⟩
        · split at hnum
          · split at hnum
            · simp only [Option.some.injEq] at hnum
              have hj : i - (digitRun t + 1) < digitRun t2 := by omega
              obtain ⟨c2, hc2, hc2d⟩ := digitRun_get t2 _ hj
              refine ⟨c2, ?_, Or.inl hc2d⟩
              rw [← hc2, ← ht2, get?_drop']
              congr 1
              omega
            · simp only [Option.some.injEq] at hnum
              omega
          · split at hnum <;> simp only [Option.some.injEq] at hnum <;> omega
      · split at hnum
        · simp only [Option.some.injEq] at hnum
          omega
        · exact Option.noConfusion hnum

theorem boolAlt_spec (t : Text) (ws : List Text) (l : Nat) (h : boolAlt t ws = some l) :
    ∃ w ∈ ws, l = w.length ∧ w <+: t ∧ boundaryAfterWord (t.drop w.length) = true := by
  induction ws with
  | nil => simp [boolAlt] at h
  | cons w ws ih =>
    simp only [boolAlt] at h
    split at h
    · rename_i hcond
      simp only [Bool.and_eq_true] at hcond
      simp only [Option.some.injEq] at h
      exact ⟨w, List.mem_cons_self w ws, h.symm,
        List.isPrefixOf_iff_prefix.mp hcond.1, hcond.2⟩
    · obtain ⟨w', hw', hrest⟩ := ih h
      exact ⟨w', List.mem_cons_of_mem _ hw', hrest⟩

theorem booleanMatchAt_spec (prev : Option Char) (t : Text) (l : Nat)
    (h : booleanMatchAt prev t = some l) :
    prevIsWord prev = false ∧ ∃ w ∈ boolWords, l = w.length ∧ w <+: t ∧
      boundaryAfterWord (t.drop w.length) = true := by
  simp only [booleanMatchAt] at h
  split at h
  · exact Option.noConfusion h
  · exact ⟨by simpa using ‹¬prevIsWord prev = true›, boolAlt_spec t boolWords l h⟩

theorem boolWords_length_pos : ∀ w ∈ boolWords, 0 < w.length := by decide

theorem boolWords_no_digit : ∀ w ∈ boolWords, ∀ c ∈ w, c.isDigit = false := by decide

theorem boolWords_no_quote : ∀ w ∈ boolWords, ∀ c ∈ w, c ≠ '"' ∧ c ≠ '\'' := by decide

theorem boolWords_head_no_colon : ∀ w ∈ boolWords, w.get? 0 ≠ some ':' := by decide

theorem booleanMatchAt_le (prev : Option Char) (t : Text) (l : Nat)
    (h : booleanMatchAt prev t = some l) : 1 ≤ l ∧ l ≤ t.length := by
  obtain ⟨-, w, hw, rfl, hp, -⟩ := booleanMatchAt_spec prev t l h
  exact ⟨boolWords_length_pos w hw, hp.length_le⟩

theorem booleanMatchAt_content (prev : Option Char) (t : Text) (l : Nat)
    (h : booleanMatchAt prev t = some l) :
    ∀ i, i < l → ∃ c, t.get? i = some c ∧ c.isDigit = false ∧ c ≠ '"' ∧ c ≠ '\'' := by
  obtain ⟨-, w, hw, rfl, hp, -⟩ := booleanMatchAt_spec prev t l h
  intro i hi
  obtain ⟨c, hc⟩ := get?_some_of_lt w i hi
  have hmem : c ∈ w := List.get?_mem hc
  refine ⟨c, ?_, boolWords_no_digit w hw c hmem, (boolWords_no_quote w hw c hmem).1,
    (boolWords_no_quote w hw c hmem).2⟩
  rw [prefix_get? w t i hp hi, hc]

theorem booleanMatchAt_head_ne_colon (prev : Option Char) (t : Text) (l : Nat)
    (h : booleanMatchAt prev t = some l) : t.get? 0 ≠ some ':' := by
  obtain ⟨-, w, hw, rfl, hp, -⟩ := booleanMatchAt_spec prev t l h
  rw [prefix_get? w t 0 hp (boolWords_length_pos w hw)]
  exact boolWords_head_no_colon w hw

theorem keyMatchAt_spec (prev : Option Char) (t : Text) (l : Nat)
    (h : keyMatchAt prev t = some l) :
    prevIsWord prev = false ∧ l = wordRun t + 1 ∧ 0 < wordRun t ∧
      t.get? (wordRun t) = some ':' ∧
      ∀ i, i < wordRun t → ∃ c, t.get? i = some c ∧ isWordChar c = true := by
  match t with
  | [] => simp [keyMatchAt] at h
  | c :: rest =>
    simp only [keyMatchAt] at h
    split at h
    · exact Option.noConfusion h
    · rename_i hw0
      split at h
      · exact Option.noConfusion h
      · rename_i hprev
        cases hdrop : (c :: rest).drop (wordRun (c :: rest)) with
        | nil => rw [hdrop] at h; exact Option.noConfusion h
        | cons c2 u =>
          rw [hdrop] at h
          have h' : (if c2 = ':' then some (wordRun (c :: rest) + 1) else none) =
              some l := h
          split at h'
          · rename_i hc2
            subst hc2
            simp only [Option.some.injEq] at h'
            have hword : isWordChar c = true := by simpa using hw0
            exact ⟨by simpa using hprev, h'.symm,
              wordRun_cons_pos c rest hword,
              get?_of_drop_cons _ _ _ _ hdrop,
              fun i hi => wordRun_get _ i hi⟩
          · exact Option.noConfusion h'

theorem keyMatchAt_le (prev : Option Char) (t : Text) (l : Nat)
    (h : keyMatchAt prev t = some l) : 1 ≤ l ∧ l ≤ t.length := by
  obtain ⟨-, rfl, hpos, hcolon, -⟩ := keyMatchAt_spec prev t l h
  have := lt_length_of_get? t _ _ hcolon
  omega

theorem bracketMatchAt_spec (t : Text) (l : Nat) (h : bracketMatchAt t = some l) :
    l = 1 ∧ ∃ c, t.get? 0 = some c ∧ isBracketChar c = true := by
  match t with
  | [] => simp [bracketMatchAt] at h
  | c :: rest =>
    simp only [bracketMatchAt] at h
    split at h
    · simp only [Option.some.injEq] at h
      exact ⟨h.symm, c, rfl, by assumption⟩
    · exact Option.noConfusion h

theorem bracketMatchAt_le (t : Text) (l : Nat) (h : bracketMatchAt t = some l) :
    1 ≤ l ∧ l ≤ t.length := by
  obtain ⟨rfl, c, hc, -⟩ := bracketMatchAt_spec t l h
  exact ⟨Nat.le_refl 1, lt_length_of_get? t 0 c hc⟩

/-! The `find_iter` driver produces a sound, ordered chain of matches. -/

theorem chainGE_mono (i j : Nat) (ms : List (Nat × Nat)) (hij : i ≤ j)
    (h : ChainGE j ms) : ChainGE i ms := by
  cases ms with
  | nil => trivial
  | cons se rest =>
    obtain ⟨h1, h2, h3⟩ := h
    exact ⟨Nat.le_trans hij h1, h2, h3⟩

theorem chainGE_mem (i : Nat) (ms : List (Nat × Nat)) (s e : Nat)
    (h : ChainGE i ms) (hmem : (s, e) ∈ ms) : i ≤ s ∧ s < e := by
  induction ms generalizing i with
  | nil => simp at hmem
  | cons se rest ih =>
    obtain ⟨h1, h2, h3⟩ := h
    rcases List.mem_cons.mp hmem with heq | hmem'
    · subst heq
      exact ⟨h1, h2⟩
    · obtain ⟨ih1, ih2⟩ := ih se.2 h3 hmem'
      exact ⟨Nat.le_trans (Nat.le_trans h1 (Nat.le_of_lt h2)) ih1, ih2⟩

theorem chainGE_pairs (i : Nat) (ms : List (Nat × Nat)) (s e s' e' : Nat)
    (h : ChainGE i ms) (h1 : (s, e) ∈ ms) (h2 : (s', e') ∈ ms) (hlt : s < s') :
    e ≤ s' := by
  induction ms generalizing i with
  | nil => simp at h1
  | cons se rest ih =>
    obtain ⟨hc1, hc2, hc3⟩ := h
    rcases List.mem_cons.mp h1 with heq1 | hm1
    · subst heq1
      rcases List.mem_cons.mp h2 with heq2 | hm2
      · injection heq2 with ha hb
        omega
      · obtain ⟨hs', -⟩ := chainGE_mem (s, e).2 rest s' e' hc3 hm2
        have he : e ≤ s' := hs'
        exact he
    · rcases List.mem_cons.mp h2 with heq2 | hm2
      · subst heq2
        obtain ⟨hs, -⟩ := chainGE_mem (s', e').2 rest s e hc3 hm1
        have hs2 : e' ≤ s := hs
        omega
      · exact ih se.2 hc3 hm1 hm2

theorem findIterGo_spec (matchAt : Option Char → Text → Option Nat) (text : Text)
    (hpos : ∀ p u l, matchAt p u = some l → 1 ≤ l ∧ l ≤ u.length) :
    ∀ fuel i, ChainGE i (findIterGo matchAt text fuel i) ∧
      ∀ se ∈ findIterGo matchAt text fuel i,
        matchAt (prevOf text se.1) (text.drop se.1) = some (se.2 - se.1) ∧
        se.2 ≤ text.length := by
  intro fuel
  induction fuel with
  | zero => intro i; exact ⟨trivial, by simp [findIterGo]⟩
  | succ fuel ih =>
    intro i
    simp only [findIterGo]
    split
    · rename_i hilen
      cases hm : matchAt (prevOf text i) (text.drop i) with
      | none =>
        exact ⟨chainGE_mono i (i + 1) _ (Nat.le_succ i) (ih (i + 1)).1, (ih (i + 1)).2⟩
      | some len =>
        obtain ⟨hp1, hp2⟩ := hpos _ _ _ hm
        have hlen : (text.drop i).length = text.length - i := by simp
        constructor
        · exact ⟨Nat.le_refl i, by omega, (ih (i + len)).1⟩
        · intro se hse
          rcases List.mem_cons.mp hse with rfl | hse'
          · refine ⟨?_, by omega⟩
            simpa [Nat.add_sub_cancel_left] using hm
          · exact (ih (i + len)).2 se hse'
    · exact ⟨trivial, by simp⟩

theorem findIter_spec (matchAt : Option Char → Text → Option Nat) (text : Text)
    (hpos : ∀ p u l, matchAt p u = some l → 1 ≤ l ∧ l ≤ u.length) :
    ChainGE 0 (findIter matchAt text) ∧
      ∀ se ∈ findIter matchAt text,
        matchAt (prevOf text se.1) (text.drop se.1) = some (se.2 - se.1) ∧
        se.2 ≤ text.length :=
  findIterGo_spec matchAt text hpos (text.length + 1) 0

theorem stringMatches_spec (text : Text) :
    ChainGE 0 (stringMatches text) ∧ ∀ se ∈ stringMatches text,
      stringMatchAt (text.drop se.1) = some (se.2 - se.1) ∧ se.2 ≤ text.length :=
  findIter_spec _ text (fun _ u l h => stringMatchAt_le u l h)

theorem numberMatches_spec (text : Text) :
    ChainGE 0 (numberMatches text) ∧ ∀ se ∈ numberMatches text,
      numberMatchAt (prevOf text se.1) (text.drop se.1) = some (se.2 - se.1) ∧
        se.2 ≤ text.length :=
  findIter_spec _ text (fun p u l h => numberMatchAt_le p u l h)

theorem booleanMatches_spec (text : Text) :
    ChainGE 0 (booleanMatches text) ∧ ∀ se ∈ booleanMatches text,
      booleanMatchAt (prevOf text se.1) (text.drop se.1) = some (se.2 - se.1) ∧
        se.2 ≤ text.length :=
  findIter_spec _ text (fun p u l h => booleanMatchAt_le p u l h)

theorem keyMatches_spec (text : Text) :
    ChainGE 0 (keyMatches text) ∧ ∀ se ∈ keyMatches text,
      keyMatchAt (prevOf text se.1) (text.drop se.1) = some (se.2 - se.1) ∧
        se.2 ≤ text.length :=
  findIter_spec _ text (fun p u l h => keyMatchAt_le p u l h)

theorem bracketMatches_spec (text : Text) :
    ChainGE 0 (bracketMatches text) ∧ ∀ se ∈ bracketMatches text,
      bracketMatchAt (text.drop se.1) = some (se.2 - se.1) ∧ se.2 ≤ text.length :=
  findIter_spec _ text (fun _ u l h => bracketMatchAt_le u l h)

theorem stageMatches_chain (p : Nat) (text : Text) : ChainGE 0 (stageMatches p text) := by
  match p with
  | 0 => trivial
  | 1 => exact (stringMatches_spec text).1
  | 2 => exact (numberMatches_spec text).1
  | 3 => exact (booleanMatches_spec text).1
  | 4 => exact (keyMatches_spec text).1
  | 5 => exact (bracketMatches_spec text).1
  | (n + 6) => trivial

theorem stageMatches_wf (p : Nat) (text : Text) (s e : Nat)
    (h : (s, e) ∈ stageMatches p text) : s < e ∧ e ≤ text.length := by
  match p with
  | 0 => simp [stageMatches] at h
  | 1 => exact ⟨(chainGE_mem 0 _ s e (stringMatches_spec text).1 h).2,
      ((stringMatches_spec text).2 (s, e) h).2⟩
  | 2 => exact ⟨(chainGE_mem 0 _ s e (numberMatches_spec text).1 h).2,
      ((numberMatches_spec text).2 (s, e) h).2⟩
  | 3 => exact ⟨(chainGE_mem 0 _ s e (booleanMatches_spec text).1 h).2,
      ((booleanMatches_spec text).2 (s, e) h).2⟩
  | 4 => exact ⟨(chainGE_mem 0 _ s e (keyMatches_spec text).1 h).2,
      ((keyMatches_spec text).2 (s, e) h).2⟩
  | 5 => exact ⟨(chainGE_mem 0 _ s e (bracketMatches_spec text).1 h).2,
      ((bracketMatches_spec text).2 (s, e) h).2⟩
  | (n + 6) => simp [stageMatches] at h

theorem prevOf_pos (text : Text) (i : Nat) (h : 0 < i) :
    prevOf text i = text.get? (i - 1) := by
  simp only [prevOf, if_neg (by omega : ¬i = 0)]

theorem accepted_string_head (text : Text) (s' e' : Nat)
    (h : (s', e') ∈ stringMatches text) :
    ∃ c, text.get? s' = some c ∧ (c = '"' ∨ c = '\'') := by
  obtain ⟨hm, -⟩ := (stringMatches_spec text).2 (s', e') h
  obtain ⟨c, hc, hq⟩ := stringMatchAt_head _ _ hm
  rw [get?_drop'] at hc
  exact ⟨c, by simpa using hc, hq⟩

theorem accepted_number_facts (text : Text) (s' e' : Nat)
    (h : (s', e') ∈ numberMatches text) :
    prevIsWord (prevOf text s') = false ∧
      ∃ c, text.get? s' = some c ∧ c.isDigit = true := by
  obtain ⟨hm, -⟩ := (numberMatches_spec text).2 (s', e') h
  obtain ⟨hprev, ⟨c, hc, hcd⟩, -⟩ := numberMatchAt_guards _ _ _ hm
  rw [get?_drop'] at hc
  exact ⟨hprev, c, by simpa using hc, hcd⟩

theorem accepted_boolean_facts (text : Text) (s' e' : Nat)
    (h : (s', e') ∈ booleanMatches text) :
    prevIsWord (prevOf text s') = false ∧ text.get? s' ≠ some ':' ∧
      ∃ c, text.get? s' = some c ∧ c.isDigit = false ∧ c ≠ '"' ∧ c ≠ '\'' := by
  obtain ⟨hm, -⟩ := (booleanMatches_spec text).2 (s', e') h
  have hprev := (booleanMatchAt_spec _ _ _ hm).1
  have hne := booleanMatchAt_head_ne_colon _ _ _ hm
  have hwf := stageMatches_wf 3 text s' e' h
  obtain ⟨c, hc, hfacts⟩ := booleanMatchAt_content _ _ _ hm 0 (by omega)
  rw [get?_drop'] at hc hne
  simp only [Nat.add_zero] at hc hne
  exact ⟨hprev, hne, c, hc, hfacts⟩

theorem accepted_key_facts (text : Text) (s' e' : Nat)
    (h : (s', e') ∈ keyMatches text) :
    prevIsWord (prevOf text s') = false ∧
      ∃ c, text.get? s' = some c ∧ isWordChar c = true := by
  obtain ⟨hm, -⟩ := (keyMatches_spec text).2 (s', e') h
  obtain ⟨hprev, -, hpos, -, hrun⟩ := keyMatchAt_spec _ _ _ hm
  obtain ⟨c, hc, hcw⟩ := hrun 0 hpos
  rw [get?_drop'] at hc
  exact ⟨hprev, c, by simpa using hc, hcw⟩

theorem cand_number_char (text : Text) (s e p : Nat)
    (h : (s, e) ∈ numberMatches text) (h1 : s ≤ p) (h2 : p < e) :
    ∃ c, text.get? p = some c ∧ (c.isDigit = true ∨ c = '.') := by
  obtain ⟨hm, -⟩ := (numberMatches_spec text).2 (s, e) h
  obtain ⟨c, hc, hcd⟩ := numberMatchAt_content _ _ _ hm (p - s) (by omega)
  rw [get?_drop'] at hc
  refine ⟨c, ?_, hcd⟩
  rw [← hc]
  congr 1
  omega

theorem cand_boolean_char (text : Text) (s e p : Nat)
    (h : (s, e) ∈ booleanMatches text) (h1 : s ≤ p) (h2 : p < e) :
    ∃ c, text.get? p = some c ∧ c.isDigit = false ∧ c ≠ '"' ∧ c ≠ '\'' := by
  obtain ⟨hm, -⟩ := (booleanMatches_spec text).2 (s, e) h
  obtain ⟨c, hc, hfacts⟩ := booleanMatchAt_content _ _ _ hm (p - s) (by omega)
  rw [get?_drop'] at hc
  refine ⟨c, ?_, hfacts⟩
  rw [← hc]
  congr 1
  omega

theorem cand_key_facts (text : Text) (s e : Nat) (h : (s, e) ∈ keyMatches text) :
    ∃ wr, 0 < wr ∧ e = s + wr + 1 ∧ text.get? (s + wr) = some ':' ∧
      ∀ i, i < wr → ∃ c, text.get? (s + i) = some c ∧ isWordChar c = true := by
  obtain ⟨hm0, -⟩ := (keyMatches_spec text).2 (s, e) h
  have hm : keyMatchAt (prevOf text s) (text.drop s) = some (e - s) := hm0
  obtain ⟨-, hlen, hpos, hcolon, hrun⟩ := keyMatchAt_spec _ _ _ hm
  have hwf := stageMatches_wf 4 text s e h
  refine ⟨wordRun (text.drop s), hpos, by omega, ?_, ?_⟩
  · rw [get?_drop'] at hcolon
    exact hcolon
  · intro i hi
    obtain ⟨c, hc, hcw⟩ := hrun i hi
    rw [get?_drop'] at hc
    exact ⟨c, hc, hcw⟩

theorem cand_bracket_len (text : Text) (s e : Nat)
    (h : (s, e) ∈ bracketMatches text) : e = s + 1 := by
  obtain ⟨hm, -⟩ := (bracketMatches_spec text).2 (s, e) h
  obtain ⟨hl1, -⟩ := bracketMatchAt_spec _ _ hm
  have hwf := stageMatches_wf 5 text s e h
  omega

/-- The central geometric fact behind the non-overlap invariant (C2) and
the priority rule (C1): no raw match of a classifier of priority `j` can
start strictly inside a raw match of a classifier of priority `l ≥ j`
on the same text.  Hence `is_inside_match`, which only consults accepted
spans starting at or before the candidate, never misses an intersection. -/
theorem interior_free (text : Text) (j l : Nat) (hj1 : 1 ≤ j) (hjl : j ≤ l)
    (hl : l ≤ 5) (s e s' e' : Nat) (hcand : (s, e) ∈ stageMatches l text)
    (hacc : (s', e') ∈ stageMatches j text) (h1 : s < s') (h2 : s' < e) :
    False := by
  rcases Nat.eq_or_lt_of_le hjl with rfl | hjlt
  · have := chainGE_pairs 0 _ s e s' e' (stageMatches_chain j text) hcand hacc h1
    omega
  have hl2 : 2 ≤ l := by omega
  interval_cases l
  · -- l = 2: number candidate, j = 1 (string)
    interval_cases j
    obtain ⟨c, hc, hcd⟩ := cand_number_char text s e s' hcand (by omega) h2
    obtain ⟨q, hq, hqq⟩ := accepted_string_head text s' e' hacc
    rw [hc] at hq
    injection hq with hq
    subst hq
    rcases hqq with rfl | rfl <;> rcases hcd with hd | hd <;> exact absurd hd (by decide)
  · -- l = 3: boolean candidate, j ∈ {1, 2}
    obtain ⟨c, hc, hcd, hcq1, hcq2⟩ := cand_boolean_char text s e s' hcand (by omega) h2
    interval_cases j
    · obtain ⟨q, hq, hqq⟩ := accepted_string_head text s' e' hacc
      rw [hc] at hq
      injection hq with hq
      subst hq
      rcases hqq with rfl | rfl
      · exact hcq1 rfl
      · exact hcq2 rfl
    · obtain ⟨-, d, hd, hdd⟩ := accepted_number_facts text s' e' hacc
      rw [hc] at hd
      injection hd with hd
      subst hd
      rw [hcd] at hdd
      exact Bool.noConfusion hdd
  · -- l = 4: key candidate, j ∈ {1, 2, 3}
    obtain ⟨wr, hwr, hstop, hcolon, hrun⟩ := cand_key_facts text s e hcand
    have hk2 : s' - s ≤ wr := by omega
    by_cases hkw : s' = s + wr
    · -- the accepted span would have to start at the colon
      rw [← hkw] at hcolon
      interval_cases j
      · obtain ⟨q, hq, hqq⟩ := accepted_string_head text s' e' hacc
        rw [hcolon] at hq
        injection hq with hq
        rcases hqq with rfl | rfl <;> exact absurd hq (by decide)
      · obtain ⟨-, d, hd, hdd⟩ := accepted_number_facts text s' e' hacc
        rw [hcolon] at hd
        injection hd with hd
        subst hd
        exact absurd hdd (by decide)
      · exact (accepted_boolean_facts text s' e' hacc).2.1 hcolon
    · -- the accepted span would have to start inside the word run
      have hklt : s' - s < wr := by omega
      obtain ⟨wc, hwc, hwcw⟩ := hrun (s' - s - 1) (by omega)
      have hwc' : text.get? (s' - 1) = some wc := by
        rw [← hwc]
        congr 1
        omega
      have hprev : prevOf text s' = some wc := by
        rw [prevOf_pos text s' (by omega)]
        exact hwc'
      interval_cases j
      · obtain ⟨wc2, hwc2, hwcw2⟩ := hrun (s' - s) hklt
        have hwc2' : text.get? s' = some wc2 := by
          rw [← hwc2]
          congr 1
          omega
        obtain ⟨q, hq, hqq⟩ := accepted_string_head text s' e' hacc
        rw [hwc2'] at hq
        injection hq with hq
        subst hq
        rcases hqq with rfl | rfl <;> exact absurd hwcw2 (by decide)
      · have hf := (accepted_number_facts text s' e' hacc).1
        rw [hprev] at hf
        simp only [prevIsWord] at hf
        rw [hwcw] at hf
        exact Bool.noConfusion hf
      · have hf := (accepted_boolean_facts text s' e' hacc).1
        rw [hprev] at hf
        simp only [prevIsWord] at hf
        rw [hwcw] at hf
        exact Bool.noConfusion hf
  · -- l = 5: bracket candidate has no interior
    have := cand_bracket_len text s e hcand
    omega

/-! Properties of the ordered-map insertion and the overlap test. -/

theorem mem_of_btInsert (en en' : SpanEntry) (m : List SpanEntry)
    (h : en' ∈ btInsert en m) : en' = en ∨ en' ∈ m := by
  induction m with
  | nil => simpa [btInsert] using h
  | cons e0 rest ih =>
    simp only [btInsert] at h
    split at h
    · rcases List.mem_cons.mp h with rfl | h2
      · exact Or.inl rfl
      · exact Or.inr h2
    · split at h
      · rcases List.mem_cons.mp h with rfl | h2
        · exact Or.inl rfl
        · exact Or.inr (List.mem_cons_of_mem _ h2)
      · rcases List.mem_cons.mp h with rfl | h2
        · exact Or.inr (List.mem_cons_self _ _)
        · rcases ih h2 with h3 | h3
          · exact Or.inl h3
          · exact Or.inr (List.mem_cons_of_mem _ h3)

theorem btInsert_mem_of_ne (en en' : SpanEntry) (m : List SpanEntry)
    (hmem : en' ∈ m) (hne : en'.start ≠ en.start) : en' ∈ btInsert en m := by
  induction m with
  | nil => simp at hmem
  | cons e0 rest ih =>
    simp only [btInsert]
    split
    · exact List.mem_cons_of_mem _ hmem
    · split
      · rename_i heq
        rcases List.mem_cons.mp hmem with rfl | h2
        · exact absurd heq.symm hne
        · exact List.mem_cons_of_mem _ h2
      · rcases List.mem_cons.mp hmem with rfl | h2
        · exact List.mem_cons_self _ _
        · exact List.mem_cons_of_mem _ (ih h2)

theorem btInsert_self_mem (en : SpanEntry) (m : List SpanEntry) :
    en ∈ btInsert en m := by
  induction m with
  | nil => simp [btInsert]
  | cons e0 rest ih =>
    simp only [btInsert]
    split
    · exact List.mem_cons_self _ _
    · split
      · exact List.mem_cons_self _ _
      · exact List.mem_cons_of_mem _ ih

theorem btInsert_pairwise (en : SpanEntry) (m : List SpanEntry)
    (hsorted : m.Pairwise fun a b => a.start < b.start)
    (hdisj : m.Pairwise fun a b => a.stop ≤ b.start)
    (hfresh : ∀ en' ∈ m, en'.start ≠ en.start)
    (hleft : ∀ en' ∈ m, en'.start < en.start → en'.stop ≤ en.start)
    (hright : ∀ en' ∈ m, en.start < en'.start → en.stop ≤ en'.start) :
    ((btInsert en m).Pairwise fun a b => a.start < b.start) ∧
      ((btInsert en m).Pairwise fun a b => a.stop ≤ b.start) := by
  induction m with
  | nil => simp [btInsert]
  | cons e0 rest ih =>
    rcases List.pairwise_cons.mp hsorted with ⟨hs0, hsrest⟩
    rcases List.pairwise_cons.mp hdisj with ⟨hd0, hdrest⟩
    simp only [btInsert]
    split
    · rename_i hlt
      constructor
      · refine List.pairwise_cons.mpr ⟨?_, hsorted⟩
        intro b hb
        rcases List.mem_cons.mp hb with rfl | h2
        · exact hlt
        · exact Nat.lt_trans hlt (hs0 b h2)
      · refine List.pairwise_cons.mpr ⟨?_, hdisj⟩
        intro b hb
        rcases List.mem_cons.mp hb with rfl | h2
        · exact hright b (List.mem_cons_self _ _) hlt
        · exact hright b (List.mem_cons_of_mem _ h2) (Nat.lt_trans hlt (hs0 b h2))
    · rename_i hnlt
      split
      · rename_i heq
        exact absurd heq.symm (hfresh e0 (List.mem_cons_self _ _))
      · rename_i hneq
        have hgt : e0.start < en.start := by omega
        obtain ⟨ihs, ihd⟩ := ih hsrest hdrest
          (fun en' h' => hfresh en' (List.mem_cons_of_mem _ h'))
          (fun en' h' => hleft en' (List.mem_cons_of_mem _ h'))
          (fun en' h' => hright en' (List.mem_cons_of_mem _ h'))
        constructor
        · refine List.pairwise_cons.mpr ⟨?_, ihs⟩
          intro b hb
          rcases mem_of_btInsert en b rest hb with rfl | h2
          · exact hgt
          · exact hs0 b h2
        · refine List.pairwise_cons.mpr ⟨?_, ihd⟩
          intro b hb
          rcases mem_of_btInsert en b rest hb with rfl | h2
          · exact hleft e0 (List.mem_cons_self _ _) hgt
          · exact hd0 b h2

theorem is_inside_match_false_iff (m : List SpanEntry) (s e : Nat) :
    is_inside_match m s e = false ↔
      ∀ en ∈ m, ¬(en.start ≤ s ∧ s < en.stop ∧ e > en.start) := by
  rw [← Bool.not_eq_true, is_inside_match]
  simp [List.any_eq_true]

theorem is_inside_match_true_iff (m : List SpanEntry) (s e : Nat) :
    is_inside_match m s e = true ↔
      ∃ en ∈ m, en.start ≤ s ∧ s < en.stop ∧ e > en.start := by
  rw [is_inside_match]
  simp [List.any_eq_true]

theorem mapInv_nil (text : Text) (l : Nat) : MapInv text l [] :=
  ⟨List.Pairwise.nil, by simp, by simp, by simp, by simp, List.Pairwise.nil⟩

theorem mapInv_mono (text : Text) (l l' : Nat) (h : l ≤ l') (m : List SpanEntry)
    (hinv : MapInv text l m) : MapInv text l' m := by
  refine ⟨hinv.sorted, hinv.wf, hinv.bound, ?_, hinv.repl, hinv.disj⟩
  intro en hen
  obtain ⟨h1, h2, h3⟩ := hinv.src en hen
  exact ⟨h1, Nat.le_trans h2 h, h3⟩

theorem insertChecked_cons_eq (text : Text) (col : Text → Text) (p : Nat)
    (c : Nat × Nat) (cs : List (Nat × Nat)) (m : List SpanEntry) :
    insertChecked text col p (c :: cs) m =
      insertChecked text col p cs
        (if is_inside_match m c.1 c.2 then m
         else btInsert ⟨c.1, c.2, col (txtSlice text c.1 c.2), p⟩ m) := rfl

/-- Processing one classifier's candidate stream preserves the table
invariant and never removes or replaces an entry. -/
theorem insertChecked_inv (text : Text) (l : Nat) (hl1 : 1 ≤ l) (hl5 : l ≤ 5) :
    ∀ (cs : List (Nat × Nat)) (m : List SpanEntry),
      (∀ se ∈ cs, se ∈ stageMatches l text) → MapInv text l m →
      MapInv text l (insertChecked text (stageColor l) l cs m) ∧
        ∀ en ∈ m, en ∈ insertChecked text (stageColor l) l cs m := by
  intro cs
  induction cs with
  | nil => exact fun m _ hinv => ⟨hinv, fun en h => h⟩
  | cons c cs ih =>
    intro m hcs hinv
    have hc : (c.1, c.2) ∈ stageMatches l text := hcs c (List.mem_cons_self _ _)
    rw [insertChecked_cons_eq]
    by_cases hins : is_inside_match m c.1 c.2 = true
    · rw [if_pos hins]
      exact ih m (fun se h => hcs se (List.mem_cons_of_mem _ h)) hinv
    · rw [if_neg hins]
      have hins' : is_inside_match m c.1 c.2 = false := by
        simpa using hins
      have hno := (is_inside_match_false_iff m c.1 c.2).mp hins'
      obtain ⟨hcwf, hcbound⟩ := stageMatches_wf l text c.1 c.2 hc
      have hfresh : ∀ en' ∈ m, en'.start ≠ c.1 := by
        intro en' hen' heq
        have hwfe := hinv.wf en' hen'
        exact hno en' hen' ⟨by omega, by omega, by omega⟩
      have hleft : ∀ en' ∈ m, en'.start < c.1 → en'.stop ≤ c.1 := by
        intro en' hen' hlt
        by_contra hcon
        push_neg at hcon
        exact hno en' hen' ⟨by omega, hcon, by omega⟩
      have hright : ∀ en' ∈ m, c.1 < en'.start → c.2 ≤ en'.start := by
        intro en' hen' hlt
        obtain ⟨hp1, hp2, hp3⟩ := hinv.src en' hen'
        by_contra hcon
        push_neg at hcon
        exact interior_free text en'.prio l hp1 hp2 hl5 c.1 c.2 en'.start en'.stop
          hc hp3 hlt hcon
      obtain ⟨hps, hpd⟩ := btInsert_pairwise
        ⟨c.1, c.2, stageColor l (txtSlice text c.1 c.2), l⟩ m
        hinv.sorted hinv.disj hfresh hleft hright
      have hinv' : MapInv text l
          (btInsert ⟨c.1, c.2, stageColor l (txtSlice text c.1 c.2), l⟩ m) := by
        refine ⟨hps, ?_, ?_, ?_, ?_, hpd⟩
        · intro en hen
          rcases mem_of_btInsert _ en m hen with rfl | h2
          · exact hcwf
          · exact hinv.wf en h2
        · intro en hen
          rcases mem_of_btInsert _ en m hen with rfl | h2
          · exact hcbound
          · exact hinv.bound en h2
        · intro en hen
          rcases mem_of_btInsert _ en m hen with rfl | h2
          · exact ⟨hl1, Nat.le_refl l, hc⟩
          · exact hinv.src en h2
        · intro en hen
          rcases mem_of_btInsert _ en m hen with rfl | h2
          · rfl
          · exact hinv.repl en h2
      obtain ⟨hfin, hsub⟩ := ih _ (fun se h => hcs se (List.mem_cons_of_mem _ h)) hinv'
      exact ⟨hfin, fun en hen =>
        hsub en (btInsert_mem_of_ne _ en m hen (hfresh en hen))⟩

theorem insertNoCheck_eq_checked (text : Text) (col : Text → Text) (p : Nat) :
    ∀ (cs : List (Nat × Nat)) (i : Nat) (m : List SpanEntry),
      ChainGE i cs → (∀ en ∈ m, en.stop ≤ i ∧ en.start < en.stop) →
      insertNoCheck text col p cs m = insertChecked text col p cs m := by
  intro cs
  induction cs with
  | nil => intro i m _ _; rfl
  | cons c cs ih =>
    intro i m hchain hm
    obtain ⟨s0, e0⟩ := c
    obtain ⟨hic, hlt, hrest⟩ := hchain
    have hfalse : is_inside_match m s0 e0 = false := by
      rw [is_inside_match_false_iff]
      rintro en hen ⟨h1, h2, h3⟩
      have := hm en hen
      omega
    have hstep : insertNoCheck text col p ((s0, e0) :: cs) m =
        insertNoCheck text col p cs
          (btInsert ⟨s0, e0, col (txtSlice text s0 e0), p⟩ m) := rfl
    rw [hstep, insertChecked_cons_eq, if_neg (by simp [hfalse])]
    apply ih e0
    · exact hrest
    · intro en hen
      rcases mem_of_btInsert _ en m hen with rfl | h2
      · exact ⟨Nat.le_refl _, hlt⟩
      · have := hm en h2
        omega

theorem mapAfter_one_eq (text : Text) :
    mapAfter text 1 =
      insertChecked text (stageColor 1) 1 (stageMatches 1 text) [] := by
  have h := insertNoCheck_eq_checked text stringColor 1 (stringMatches text) 0 []
    (stageMatches_chain 1 text) (by simp)
  exact h

theorem mapAfter_step (text : Text) (n : Nat) :
    mapAfter text (n + 2) =
      insertChecked text (stageColor (n + 2)) (n + 2) (stageMatches (n + 2) text)
        (mapAfter text (n + 1)) := rfl

theorem mapAfter_inv (text : Text) : ∀ k, k ≤ 5 → MapInv text k (mapAfter text k) := by
  intro k
  induction k with
  | zero => intro _; exact mapInv_nil text 0
  | succ k ih =>
    intro hk5
    cases k with
    | zero =>
      rw [mapAfter_one_eq]
      exact (insertChecked_inv text 1 (by omega) (by omega) (stageMatches 1 text) []
        (fun se h => h) (mapInv_nil text 1)).1
    | succ k0 =>
      rw [mapAfter_step text k0]
      exact (insertChecked_inv text (k0 + 2) (by omega) (by omega)
        (stageMatches (k0 + 2) text) (mapAfter text (k0 + 1)) (fun se h => h)
        (mapInv_mono text (k0 + 1) (k0 + 2) (by omega) _ (ih (by omega)))).1

theorem mapAfter_subset_succ (text : Text) (k : Nat) (hk : k + 1 ≤ 5) :
    ∀ en ∈ mapAfter text k, en ∈ mapAfter text (k + 1) := by
  cases k with
  | zero => intro en hen; simp [mapAfter] at hen
  | succ k0 =>
    rw [mapAfter_step text k0]
    exact (insertChecked_inv text (k0 + 2) (by omega) (by omega)
      (stageMatches (k0 + 2) text) (mapAfter text (k0 + 1)) (fun se h => h)
      (mapInv_mono text (k0 + 1) (k0 + 2) (by omega) _
        (mapAfter_inv text (k0 + 1) (by omega)))).2

theorem mapAfter_subset (text : Text) (j k : Nat) (hjk : j ≤ k) (hk : k ≤ 5) :
    ∀ en ∈ mapAfter text j, en ∈ mapAfter text k := by
  induction k with
  | zero =>
    intro en hen
    have hj : j = 0 := by omega
    subst hj
    exact hen
  | succ k ih =>
    intro en hen
    rcases Nat.eq_or_lt_of_le hjk with rfl | hlt
    · exact hen
    · exact mapAfter_subset_succ text k hk en (ih (by omega) (by omega) en hen)

theorem buildMatches_inv (text : Text) : MapInv text 5 (buildMatches text) :=
  mapAfter_inv text 5 (Nat.le_refl 5)

/-- Provenance: entries produced by one classifier loop either predate the
loop or carry its priority. -/
theorem insertChecked_provenance (text : Text) (col : Text → Text) (p : Nat) :
    ∀ (cs : List (Nat × Nat)) (m : List SpanEntry) (en : SpanEntry),
      en ∈ insertChecked text col p cs m → en ∈ m ∨ en.prio = p := by
  intro cs
  induction cs with
  | nil => exact fun m en h => Or.inl h
  | cons c cs ih =>
    intro m en hen
    rw [insertChecked_cons_eq] at hen
    rcases ih _ en hen with hmem | hp
    · split at hmem
      · exact Or.inl hmem
      · rcases mem_of_btInsert _ en m hmem with rfl | h2
        · exact Or.inr rfl
        · exact Or.inl h2
    · exact Or.inr hp

/-- An entry of the table carrying priority `p` was already present right
after the priority-`p` loop. -/
theorem mapAfter_mem_down (text : Text) :
    ∀ (k : Nat), k ≤ 5 → ∀ en ∈ mapAfter text k, en ∈ mapAfter text en.prio := by
  intro k
  induction k with
  | zero => intro _ en hen; simp [mapAfter] at hen
  | succ k ih =>
    intro hk en hen
    have hstep : en ∈ mapAfter text k ∨ en.prio = k + 1 := by
      cases k with
      | zero =>
        rw [mapAfter_one_eq] at hen
        rcases insertChecked_provenance text (stageColor 1) 1 _ _ en hen with h | h
        · simp at h
        · exact Or.inr h
      | succ k0 =>
        rw [mapAfter_step text k0] at hen
        exact insertChecked_provenance text _ _ _ _ en hen
    rcases hstep with hmem | hp
    · exact ih (by omega) en hmem
    · rw [hp]
      exact hen

/-- If some already-accepted span blocks offset `s`, the priority-`l` loop
accepts no candidate starting at `s`. -/
theorem insertChecked_blocked (text : Text) (l : Nat) (hl1 : 1 ≤ l) (hl5 : l ≤ 5)
    (s : Nat) :
    ∀ (cs : List (Nat × Nat)) (m : List SpanEntry),
      (∀ se ∈ cs, se ∈ stageMatches l text) → MapInv text l m →
      (∃ en1 ∈ m, en1.start ≤ s ∧ s < en1.stop) →
      (∀ en ∈ m, ¬(en.start = s ∧ en.prio = l)) →
      ∀ en ∈ insertChecked text (stageColor l) l cs m,
        ¬(en.start = s ∧ en.prio = l) := by
  intro cs
  induction cs with
  | nil => exact fun m _ _ _ hns => hns
  | cons c cs ih =>
    intro m hcs hinv hblock hns
    obtain ⟨s0, e0⟩ := c
    have hc : (s0, e0) ∈ stageMatches l text := hcs (s0, e0) (List.mem_cons_self _ _)
    rw [insertChecked_cons_eq]
    by_cases hins : is_inside_match m s0 e0 = true
    · rw [if_pos hins]
      exact ih m (fun se h => hcs se (List.mem_cons_of_mem _ h)) hinv hblock hns
    · rw [if_neg hins]
      obtain ⟨hcwf, hcbound⟩ := stageMatches_wf l text s0 e0 hc
      have hs0ne : s0 ≠ s := by
        intro heq
        subst heq
        obtain ⟨en1, hen1, hb1, hb2⟩ := hblock
        exact hins ((is_inside_match_true_iff m s0 e0).mpr
          ⟨en1, hen1, hb1, hb2, by omega⟩)
      have hins' : is_inside_match m s0 e0 = false := by simpa using hins
      have hno := (is_inside_match_false_iff m s0 e0).mp hins'
      have hfresh : ∀ en' ∈ m, en'.start ≠ s0 := by
        intro en' hen' heq
        have hwfe := hinv.wf en' hen'
        exact hno en' hen' ⟨by omega, by omega, by omega⟩
      have hleft : ∀ en' ∈ m, en'.start < s0 → en'.stop ≤ s0 := by
        intro en' hen' hlt
        by_contra hcon
        push_neg at hcon
        exact hno en' hen' ⟨by omega, hcon, by omega⟩
      have hright : ∀ en' ∈ m, s0 < en'.start → e0 ≤ en'.start := by
        intro en' hen' hlt
        obtain ⟨hp1, hp2, hp3⟩ := hinv.src en' hen'
        by_contra hcon
        push_neg at hcon
        exact interior_free text en'.prio l hp1 hp2 hl5 s0 e0 en'.start en'.stop
          hc hp3 hlt hcon
      obtain ⟨hps, hpd⟩ := btInsert_pairwise
        ⟨s0, e0, stageColor l (txtSlice text s0 e0), l⟩ m
        hinv.sorted hinv.disj hfresh hleft hright
      have hinv' : MapInv text l
          (btInsert ⟨s0, e0, stageColor l (txtSlice text s0 e0), l⟩ m) := by
        refine ⟨hps, ?_, ?_, ?_, ?_, hpd⟩
        · intro en hen
          rcases mem_of_btInsert _ en m hen with rfl | h2
          · exact hcwf
          · exact hinv.wf en h2
        · intro en hen
          rcases mem_of_btInsert _ en m hen with rfl | h2
          · exact hcbound
          · exact hinv.bound en h2
        · intro en hen
          rcases mem_of_btInsert _ en m hen with rfl | h2
          · exact ⟨hl1, Nat.le_refl l, hc⟩
          · exact hinv.src en h2
        · intro en hen
          rcases mem_of_btInsert _ en m hen with rfl | h2
          · rfl
          · exact hinv.repl en h2
      refine ih _ (fun se h => hcs se (List.mem_cons_of_mem _ h)) hinv' ?_ ?_
      · obtain ⟨en1, hen1, hb1, hb2⟩ := hblock
        exact ⟨en1, btInsert_mem_of_ne _ en1 m hen1 (hfresh en1 hen1), hb1, hb2⟩
      · intro en hen
        rcases mem_of_btInsert _ en m hen with rfl | h2
        · rintro ⟨ha, -⟩
          exact hs0ne ha
        · exact hns en h2

/-! The terminal-escape scanner: extension, splitting at an escape byte,
and exact matches on inserted escape sequences. -/

theorem ansiParamTail_esc (w : Text) : ansiParamTail (escChar :: w) = none := rfl

theorem ansiParamTail_extend (u v : Text) : ∀ (l : Nat),
    ansiParamTail u = some l → ansiParamTail (u ++ v) = some l := by
  induction u with
  | nil => intro l h; simp [ansiParamTail] at h
  | cons c rest ih =>
    intro l h
    simp only [ansiParamTail, List.cons_append] at h ⊢
    split at h
    · rename_i h1
      rw [if_pos h1]
      obtain ⟨l', hl', rfl⟩ := Option.map_eq_some'.mp h
      exact Option.map_eq_some'.mpr ⟨l', ih l' hl', rfl⟩
    · rename_i h1
      rw [if_neg h1]
      split at h
      · rename_i h2
        rw [if_pos h2]
        exact h
      · rename_i h2
        rw [if_neg h2]
        exact h

theorem ansiParamTail_esc_split (u w : Text) : ∀ (l : Nat),
    ansiParamTail (u ++ escChar :: w) = some l → ansiParamTail u = some l := by
  induction u with
  | nil =>
    intro l h
    rw [List.nil_append, ansiParamTail_esc] at h
    exact Option.noConfusion h
  | cons c rest ih =>
    intro l h
    simp only [ansiParamTail, List.cons_append] at h ⊢
    split at h
    · rename_i h1
      rw [if_pos h1]
      obtain ⟨l', hl', rfl⟩ := Option.map_eq_some'.mp h
      exact Option.map_eq_some'.mpr ⟨l', ih l' hl', rfl⟩
    · rename_i h1
      rw [if_neg h1]
      split at h
      · rename_i h2
        rw [if_pos h2]
        exact h
      · rename_i h2
        rw [if_neg h2]
        exact h

theorem ansiMatchAt_extend (u v : Text) (l : Nat) (h : ansiMatchAt u = some l) :
    ansiMatchAt (u ++ v) = some l := by
  match u with
  | [] => simp [ansiMatchAt] at h
  | [a] => simp [ansiMatchAt] at h
  | a :: b :: rest =>
    simp only [ansiMatchAt, List.cons_append] at h ⊢
    split at h
    · rename_i hcond
      rw [if_pos hcond]
      obtain ⟨l', hl', rfl⟩ := Option.map_eq_some'.mp h
      exact Option.map_eq_some'.mpr ⟨l', ansiParamTail_extend rest v l' hl', rfl⟩
    · exact Option.noConfusion h

theorem ansiMatchAt_esc_split (g w : Text) (l : Nat)
    (h : ansiMatchAt (g ++ escChar :: w) = some l) :
    g = [] ∨ ansiMatchAt g = some l := by
  match g with
  | [] => exact Or.inl rfl
  | [a] =>
    exfalso
    have h2 : decide (escChar = '[') = false := by decide
    simp only [List.cons_append, List.nil_append, ansiMatchAt, h2,
      Bool.and_false] at h
    simp at h
  | a :: b :: g' =>
    refine Or.inr ?_
    simp only [ansiMatchAt, List.cons_append] at h ⊢
    split at h
    · rename_i hcond
      rw [if_pos hcond]
      obtain ⟨l', hl', rfl⟩ := Option.map_eq_some'.mp h
      exact Option.map_eq_some'.mpr ⟨l', ansiParamTail_esc_split g' w l' hl', rfl⟩
    · exact Option.noConfusion h

theorem ansiParamTail_params (pr : Text) (hpr : paramsOk pr) (W : Text) :
    ansiParamTail (pr ++ 'm' :: W) = some (pr.length + 1) := by
  induction pr with
  | nil => rfl
  | cons c rest ih =>
    have hc := hpr c (List.mem_cons_self _ _)
    have hcond : (c.isDigit || decide (c = ';')) = true := by
      rcases hc with h | h
      · simp [h]
      · subst h
        simp
    simp only [List.cons_append, ansiParamTail]
    rw [if_pos hcond]
    exact Option.map_eq_some'.mpr
      ⟨rest.length + 1, ih (fun d hd => hpr d (List.mem_cons_of_mem _ hd)), rfl⟩

theorem mkEsc_append (pr W : Text) :
    mkEsc pr ++ W = escChar :: '[' :: (pr ++ 'm' :: W) := by
  simp [mkEsc]

theorem ansiMatchAt_mkEsc (pr W : Text) (hpr : paramsOk pr) :
    ansiMatchAt (mkEsc pr ++ W) = some (pr.length + 3) := by
  rw [mkEsc_append]
  simp only [ansiMatchAt]
  rw [if_pos (by decide), ansiParamTail_params pr hpr W]
  rfl

/-! Positions with and without escape matches, and the stripping pass. -/

theorem contains_ansi_iff (u : Text) :
    contains_ansi_codes u = true ↔ ∃ p, (ansiMatchAt (u.drop p)).isSome = true := by
  induction u with
  | nil => simp [contains_ansi_codes, ansiMatchAt]
  | cons c rest ih =>
    simp only [contains_ansi_codes, Bool.or_eq_true, ih]
    constructor
    · rintro (h | ⟨p, hp⟩)
      · exact ⟨0, h⟩
      · exact ⟨p + 1, by simpa using hp⟩
    · rintro ⟨p, hp⟩
      cases p with
      | zero => exact Or.inl (by simpa using hp)
      | succ p => exact Or.inr ⟨p, by simpa using hp⟩

theorem clean_drop (u : Text) (h : contains_ansi_codes u = false) (p : Nat) :
    ansiMatchAt (u.drop p) = none := by
  cases hm : ansiMatchAt (u.drop p) with
  | none => rfl
  | some l =>
    exfalso
    rw [← Bool.not_eq_true, contains_ansi_iff] at h
    exact h ⟨p, by simp [hm]⟩

theorem clean_drop_all (u : Text) (h : contains_ansi_codes u = false) (q : Nat) :
    contains_ansi_codes (u.drop q) = false := by
  rw [← Bool.not_eq_true, contains_ansi_iff]
  rintro ⟨p, hp⟩
  rw [List.drop_drop] at hp
  rw [clean_drop u h (q + p)] at hp
  simp at hp

theorem clean_slice (text : Text) (hclean : contains_ansi_codes text = false)
    (a b p : Nat) : ansiMatchAt ((txtSlice text a b).drop p) = none := by
  rw [txtSlice_drop]
  cases hm : ansiMatchAt (txtSlice text (a + p) b) with
  | none => rfl
  | some l =>
    exfalso
    have hsplit : text.drop (a + p) =
        txtSlice text (a + p) b ++ (text.drop b).drop (a + p - (text.take b).length) := by
      conv_lhs => rw [← List.take_append_drop b text]
      rw [List.drop_append_eq_append_drop]
      rfl
    have hext := ansiMatchAt_extend _ ((text.drop b).drop (a + p - (text.take b).length)) l hm
    rw [← hsplit] at hext
    rw [clean_drop text hclean (a + p)] at hext
    exact Option.noConfusion hext

theorem stripAnsi_clean (u : Text) (h : contains_ansi_codes u = false) :
    stripAnsi u = u := by
  induction u with
  | nil => simp [stripAnsi]
  | cons c rest ih =>
    have h0 : ansiMatchAt (c :: rest) = none := by
      have := clean_drop (c :: rest) h 0
      simpa using this
    have h1 : contains_ansi_codes rest = false := by
      simp only [contains_ansi_codes, Bool.or_eq_false_iff] at h
      exact h.2
    simp [stripAnsi, h0, ih h1]

theorem stripAnsi_append_esc (G w : Text)
    (hG : ∀ p, ansiMatchAt (G.drop p) = none) :
    stripAnsi (G ++ escChar :: w) = G ++ stripAnsi (escChar :: w) := by
  induction G with
  | nil => simp
  | cons c G' ih =>
    have hm : ansiMatchAt (c :: (G' ++ escChar :: w)) = none := by
      cases hx : ansiMatchAt (c :: (G' ++ escChar :: w)) with
      | none => rfl
      | some l =>
        exfalso
        have hsplit := ansiMatchAt_esc_split (c :: G') w l (by
          rw [List.cons_append]
          exact hx)
        rcases hsplit with habs | hg
        · exact List.noConfusion habs
        · have h0 := hG 0
          rw [List.drop_zero] at h0
          rw [h0] at hg
          exact Option.noConfusion hg
    rw [List.cons_append]
    have hstep : stripAnsi (c :: (G' ++ escChar :: w)) =
        c :: stripAnsi (G' ++ escChar :: w) := by
      simp only [stripAnsi, hm]
    rw [hstep, ih (fun p => by have := hG (p + 1); simpa using this),
      List.cons_append]

theorem stripAnsi_mkEsc (pr W : Text) (hpr : paramsOk pr) :
    stripAnsi (mkEsc pr ++ W) = stripAnsi W := by
  have hm := ansiMatchAt_mkEsc pr W hpr
  rw [mkEsc_append] at hm ⊢
  have hdrop : ('[' :: (pr ++ 'm' :: W)).drop (pr.length + 3 - 1) = W := by
    have h2 : pr.length + 3 - 1 = pr.length + 1 + 1 := by omega
    rw [h2, List.drop_succ_cons, List.drop_append_eq_append_drop]
    simp
  simp only [stripAnsi, hm, hdrop]

theorem strip_wrap (pr M Z : Text) (hpr : paramsOk pr)
    (hM : ∀ p, ansiMatchAt (M.drop p) = none) :
    stripAnsi (mkEsc pr ++ (M ++ (resetSeq ++ Z))) = M ++ stripAnsi Z := by
  rw [stripAnsi_mkEsc pr _ hpr]
  have hres : M ++ (resetSeq ++ Z) = M ++ escChar :: ('[' :: ('0' :: ('m' :: Z))) := by
    simp [resetSeq, mkEsc]
  rw [hres, stripAnsi_append_esc M _ hM]
  congr 1
  have h0 : escChar :: ('[' :: ('0' :: ('m' :: Z))) = mkEsc ['0'] ++ Z := by
    simp [mkEsc]
  rw [h0, stripAnsi_mkEsc ['0'] Z (by unfold paramsOk; decide)]

theorem strip_glue (G pr M Z : Text)
    (hG : ∀ p, ansiMatchAt (G.drop p) = none) (hpr : paramsOk pr)
    (hM : ∀ p, ansiMatchAt (M.drop p) = none) :
    stripAnsi (G ++ (mkEsc pr ++ (M ++ (resetSeq ++ Z)))) = G ++ (M ++ stripAnsi Z) := by
  rw [mkEsc_append, stripAnsi_append_esc G _ hG, ← mkEsc_append,
    strip_wrap pr M Z hpr hM]

theorem dropLast_append_last (l : Text) (c : Char)
    (h : l.get? (l.length - 1) = some c) (hne : l ≠ []) : l.dropLast ++ [c] = l := by
  obtain ⟨hlt, hget⟩ := List.get?_eq_some.mp h
  have hd := List.dropLast_append_getLast hne
  rw [List.getLast_eq_get] at hd
  rw [← hget]
  exact hd

theorem buildMatches_replShape (text : Text) (en : SpanEntry)
    (hen : en ∈ buildMatches text) : ReplShape text en := by
  have hinv := buildMatches_inv text
  obtain ⟨hp1, hp5, hsrc⟩ := hinv.src en hen
  have hrepl := hinv.repl en hen
  have hwf := hinv.wf en hen
  have hbound := hinv.bound en hen
  have hcase : en.prio = 1 ∨ en.prio = 2 ∨ en.prio = 3 ∨ en.prio = 4 ∨ en.prio = 5 := by
    omega
  rcases hcase with hp | hp | hp | hp | hp
  · exact ⟨['9', '2'], by unfold paramsOk; decide, by rw [hrepl, hp]; rfl⟩
  · exact ⟨['9', '3'], by unfold paramsOk; decide, by rw [hrepl, hp]; rfl⟩
  · rw [hp] at hrepl
    by_cases hw : (decide (txtSlice text en.start en.stop = "true".toList) ||
        decide (txtSlice text en.start en.stop = "false".toList)) = true
    · refine ⟨['9', '3', ';', '1'], by unfold paramsOk; decide, ?_⟩
      rw [hrepl]
      simp only [stageColor, booleanColor]
      rw [if_pos hw]
      rfl
    · refine ⟨['9', '0'], by unfold paramsOk; decide, ?_⟩
      rw [hrepl]
      simp only [stageColor, booleanColor]
      rw [if_neg hw]
      rfl
  · -- key label: the matched slice ends in a colon, so wrapping the
    -- capture group plus a colon equals wrapping the whole slice
    rw [hp] at hsrc
    obtain ⟨wr, hwrpos, hstop, hcolon, hrun⟩ := cand_key_facts text en.start en.stop hsrc
    have hlen : (txtSlice text en.start en.stop).length = en.stop - en.start :=
      txtSlice_length text en.start en.stop (Nat.le_of_lt hwf) hbound
    have hgetlast : (txtSlice text en.start en.stop).get?
        ((txtSlice text en.start en.stop).length - 1) = some ':' := by
      rw [hlen]
      have : en.stop - en.start - 1 = wr := by omega
      rw [this, txtSlice_get? text en.start en.stop wr (by omega)]
      exact hcolon
    have hne : txtSlice text en.start en.stop ≠ [] := by
      intro habs
      rw [habs] at hlen
      simp at hlen
      omega
    have hlast := dropLast_append_last _ ':' hgetlast hne
    refine ⟨['9', '6'], by unfold paramsOk; decide, ?_⟩
    rw [hrepl, hp]
    show keyColor (txtSlice text en.start en.stop) = _
    rw [keyColor]
    rw [show (txtSlice text en.start en.stop).dropLast ++ ':' :: resetSeq =
      ((txtSlice text en.start en.stop).dropLast ++ [':']) ++ resetSeq by
        rw [List.append_cons]]
    rw [hlast, ← List.append_assoc]
  · exact ⟨['9', '7'], by unfold paramsOk; decide, by rw [hrepl, hp]; rfl⟩

theorem chainEntries_of_inv (text : Text) :
    ∀ (m : List SpanEntry) (i : Nat),
      (m.Pairwise fun a b => a.stop ≤ b.start) →
      (∀ en ∈ m, en.start < en.stop) → (∀ en ∈ m, en.stop ≤ text.length) →
      (∀ en ∈ m, ReplShape text en) → (∀ en ∈ m, i ≤ en.start) →
      ChainEntries text i m := by
  intro m
  induction m with
  | nil => intro i _ _ _ _ _; trivial
  | cons en rest ih =>
    intro i hdisj hwf hbound hshape hstart
    obtain ⟨hd0, hdrest⟩ := List.pairwise_cons.mp hdisj
    exact ⟨hstart en (List.mem_cons_self _ _), hwf en (List.mem_cons_self _ _),
      hbound en (List.mem_cons_self _ _), hshape en (List.mem_cons_self _ _),
      ih en.stop hdrest (fun b hb => hwf b (List.mem_cons_of_mem _ hb))
        (fun b hb => hbound b (List.mem_cons_of_mem _ hb))
        (fun b hb => hshape b (List.mem_cons_of_mem _ hb))
        (fun b hb => hd0 b hb)⟩

theorem strip_render (text : Text) (hclean : contains_ansi_codes text = false) :
    ∀ (entries : List SpanEntry) (lastEnd : Nat), lastEnd ≤ text.length →
      ChainEntries text lastEnd entries →
      stripAnsi (render text lastEnd entries) = text.drop lastEnd := by
  intro entries
  induction entries with
  | nil =>
    intro lastEnd hle hch
    exact stripAnsi_clean _ (clean_drop_all text hclean lastEnd)
  | cons en rest ih =>
    intro lastEnd hle hch
    obtain ⟨h1, h2, h3, ⟨pr, hpr, hshape⟩, hch'⟩ := hch
    simp only [render]
    rw [hshape]
    have hGclean : ∀ p, ansiMatchAt ((txtSlice text lastEnd en.start).drop p) = none :=
      fun p => clean_slice text hclean lastEnd en.start p
    have hMclean : ∀ p, ansiMatchAt ((txtSlice text en.start en.stop).drop p) = none :=
      fun p => clean_slice text hclean en.start en.stop p
    have hassoc : txtSlice text lastEnd en.start ++
        (mkEsc pr ++ txtSlice text en.start en.stop ++ resetSeq) ++
          render text en.stop rest =
        txtSlice text lastEnd en.start ++ (mkEsc pr ++
          (txtSlice text en.start en.stop ++
            (resetSeq ++ render text en.stop rest))) := by
      simp [List.append_assoc]
    rw [hassoc, strip_glue _ pr _ _ hGclean hpr hMclean]
    rw [ih en.stop h3 hch',
      ← txtSlice_drop_eq text en.start en.stop (Nat.le_of_lt h2) h3,
      ← txtSlice_drop_eq text lastEnd en.start h1 (by omega)]

theorem isAlpha_not_digit (c : Char) (h : c.isAlpha = true) : c.isDigit = false := by
  simp only [Char.isAlpha, Char.isUpper, Char.isLower, Bool.or_eq_true,
    Bool.and_eq_true, decide_eq_true_eq] at h
  simp only [Char.isDigit, Bool.and_eq_false_iff, decide_eq_false_iff_not]
  rcases h with ⟨h1, h2⟩ | ⟨h1, h2⟩
  · right
    intro hc
    exact absurd (UInt32.le_trans h1 hc) (by decide)
  · right
    intro hc
    exact absurd (UInt32.le_trans h1 hc) (by decide)

theorem isAlpha_param_false (c : Char) (h : c.isAlpha = true) :
    (c.isDigit || decide (c = ';')) = false := by
  rw [Bool.or_eq_false_iff]
  refine ⟨isAlpha_not_digit c h, ?_⟩
  simp only [decide_eq_false_iff_not]
  rintro rfl
  simp at h

theorem ansiParamTail_letter (mid : Text) (c : Char) (post : Text)
    (hmid : ∀ d ∈ mid, d.isDigit = true ∨ d = ';') (hc : c.isAlpha = true) :
    ansiParamTail (mid ++ c :: post) = some (mid.length + 1) := by
  induction mid with
  | nil =>
    simp only [List.nil_append, ansiParamTail]
    rw [if_neg (by rw [isAlpha_param_false c hc]; simp), if_pos hc]
    rfl
  | cons d rest ih =>
    have hd := hmid d (List.mem_cons_self _ _)
    have hcond : (d.isDigit || decide (d = ';')) = true := by
      rcases hd with h | h
      · simp [h]
      · subst h
        simp
    simp only [List.cons_append, ansiParamTail]
    rw [if_pos hcond]
    exact Option.map_eq_some'.mpr
      ⟨rest.length + 1, ih (fun x hx => hmid x (List.mem_cons_of_mem _ hx)), rfl⟩

theorem ansiParamTail_decomp (u : Text) : ∀ (l : Nat), ansiParamTail u = some l →
    ∃ mid c post, u = mid ++ c :: post ∧
      (∀ d ∈ mid, d.isDigit = true ∨ d = ';') ∧ c.isAlpha = true := by
  induction u with
  | nil => intro l h; simp [ansiParamTail] at h
  | cons d rest ih =>
    intro l h
    simp only [ansiParamTail] at h
    split at h
    · rename_i h1
      obtain ⟨l', hl', rfl⟩ := Option.map_eq_some'.mp h
      obtain ⟨mid, c, post, heq, hmid, hc⟩ := ih l' hl'
      refine ⟨d :: mid, c, post, by rw [heq]; rfl, ?_, hc⟩
      intro x hx
      rcases List.mem_cons.mp hx with rfl | hx'
      · simpa using h1
      · exact hmid x hx'
    · split at h
      · rename_i h2
        exact ⟨[], d, rest, rfl, by simp, h2⟩
      · exact Option.noConfusion h

theorem ansiMatchAt_decomp (u : Text) (l : Nat) (h : ansiMatchAt u = some l) :
    ∃ mid c post, u = escChar :: '[' :: (mid ++ c :: post) ∧
      (∀ d ∈ mid, d.isDigit = true ∨ d = ';') ∧ c.isAlpha = true := by
  match u with
  | [] => simp [ansiMatchAt] at h
  | [a] => simp [ansiMatchAt] at h
  | a :: b :: rest =>
    simp only [ansiMatchAt] at h
    split at h
    · rename_i hcond
      simp only [Bool.and_eq_true, decide_eq_true_eq] at hcond
      obtain ⟨rfl, rfl⟩ := hcond
      obtain ⟨l', hl', rfl⟩ := Option.map_eq_some'.mp h
      obtain ⟨mid, c, post, heq, hmid, hc⟩ := ansiParamTail_decomp rest l' hl'
      exact ⟨mid, c, post, by rw [heq], hmid, hc⟩
    · exact Option.noConfusion h

theorem hasAnsiSeq_contains (text : Text) (h : HasAnsiSeq text) :
    contains_ansi_codes text = true := by
  obtain ⟨pre, mid, c, post, heq, hmid, hc⟩ := h
  rw [contains_ansi_iff]
  refine ⟨pre.length, ?_⟩
  rw [heq, List.drop_left]
  have : ansiMatchAt (escChar :: '[' :: (mid ++ c :: post)) = some (mid.length + 3) := by
    simp only [ansiMatchAt]
    rw [if_pos (by decide), ansiParamTail_letter mid c post hmid hc]
    rfl
  rw [this]
  rfl

theorem contains_hasAnsiSeq (text : Text) (h : contains_ansi_codes text = true) :
    HasAnsiSeq text := by
  rw [contains_ansi_iff] at h
  obtain ⟨p, hp⟩ := h
  cases hm : ansiMatchAt (text.drop p) with
  | none => rw [hm] at hp; simp at hp
  | some l =>
    obtain ⟨mid, c, post, heq, hmid, hc⟩ := ansiMatchAt_decomp _ l hm
    exact ⟨text.take p, mid, c, post, by rw [← heq, List.take_append_drop], hmid, hc⟩

theorem highlight_of_contains (text : Text) (h : contains_ansi_codes text = true) :
    highlight_syntax text = text := by
  show (if text.isEmpty || contains_ansi_codes text then text
    else render text 0 (buildMatches text)) = text
  rw [h, Bool.or_true]
  rfl

theorem highlight_eq_render (text : Text) (hne : text.isEmpty = false)
    (hclean : contains_ansi_codes text = false) :
    highlight_syntax text = render text 0 (buildMatches text) := by
  show (if text.isEmpty || contains_ansi_codes text then text
    else render text 0 (buildMatches text)) = _
  rw [hne, hclean]
  rfl

theorem chainEntries_build (text : Text) : ChainEntries text 0 (buildMatches text) := by
  have hinv := buildMatches_inv text
  exact chainEntries_of_inv text (buildMatches text) 0 hinv.disj hinv.wf hinv.bound
    (fun en hen => buildMatches_replShape text en hen) (fun en _ => Nat.zero_le _)

theorem render_contains (text : Text) (en : SpanEntry) (rest : List SpanEntry)
    (hshape : ReplShape text en) :
    contains_ansi_codes (render text 0 (en :: rest)) = true := by
  obtain ⟨pr, hpr, hrepl⟩ := hshape
  rw [contains_ansi_iff]
  refine ⟨(txtSlice text 0 en.start).length, ?_⟩
  simp only [render]
  rw [hrepl]
  rw [show txtSlice text 0 en.start ++
      (mkEsc pr ++ txtSlice text en.start en.stop ++ resetSeq) ++
        render text en.stop rest =
      txtSlice text 0 en.start ++
        (mkEsc pr ++ (txtSlice text en.start en.stop ++
          (resetSeq ++ render text en.stop rest))) by simp [List.append_assoc]]
  rw [List.drop_left, ansiMatchAt_mkEsc pr _ hpr]
  rfl

theorem from_str_isSome_iff (s : Text) :
    (LogLevel.from_str s).isSome = true ↔ recognizedLevelName s := by
  unfold LogLevel.from_str recognizedLevelName
  simp only [List.map_cons, List.map_nil, List.mem_cons, List.not_mem_nil, or_false]
  split_ifs with h1 h2 h3 h4 h5 <;> simp_all <;> tauto

/-- Claim C1: earlier-priority (lower-number) classifiers always win.
For every input text: (1) the accepted-span table only grows from one
classifier loop to the next, so no accepted span of an earlier classifier
is ever removed or replaced by a later classifier's candidate; (2) every
accepted span is exactly a raw match of its own classifier, never clipped
to a sub-range; (3) a raw candidate of the priority-`l` classifier that
intersects a span accepted before that loop is discarded entirely: it
contributes no entry to the final table. -/
theorem claim_c1 (text : Text) :
    (∀ k l, k ≤ l → l ≤ 5 → ∀ en ∈ mapAfter text k, en ∈ mapAfter text l) ∧
    (∀ en ∈ buildMatches text, (en.start, en.stop) ∈ stageMatches en.prio text) ∧
    (∀ l, 1 ≤ l → l ≤ 5 → ∀ se ∈ stageMatches l text,
      (∃ en1 ∈ mapAfter text (l - 1), en1.start < se.2 ∧ se.1 < en1.stop) →
      ∀ en ∈ buildMatches text, ¬(en.start = se.1 ∧ en.prio = l)) := by
  refine ⟨fun k l hkl hl5 => mapAfter_subset text k l hkl hl5, ?_, ?_⟩
  · intro en hen
    exact ((buildMatches_inv text).src en hen).2.2
  · rintro l hl1 hl5 se hse ⟨en1, hen1, hi1, hi2⟩
    have hinvprev := mapAfter_inv text (l - 1) (by omega)
    obtain ⟨q1, q2, q3⟩ := hinvprev.src en1 hen1
    have hle : en1.start ≤ se.1 := by
      by_contra hcon
      push_neg at hcon
      exact interior_free text en1.prio l q1 (by omega) hl5 se.1 se.2 en1.start
        en1.stop hse q3 hcon hi1
    have hstage : mapAfter text l = insertChecked text (stageColor l) l
        (stageMatches l text) (mapAfter text (l - 1)) := by
      match l, hl1 with
      | 1, _ => exact mapAfter_one_eq text
      | (n + 2), _ => exact mapAfter_step text n
    have hblocked : ∀ en ∈ mapAfter text l, ¬(en.start = se.1 ∧ en.prio = l) := by
      rw [hstage]
      refine insertChecked_blocked text l hl1 hl5 se.1 (stageMatches l text)
        (mapAfter text (l - 1)) (fun x h => h)
        (mapInv_mono text (l - 1) l (by omega) _ hinvprev)
        ⟨en1, hen1, hle, hi2⟩ ?_
      rintro en hen ⟨ha, hb⟩
      obtain ⟨r1, r2, r3⟩ := hinvprev.src en hen
      omega
    intro en hen hcontr
    have hdown := mapAfter_mem_down text 5 (Nat.le_refl 5) en hen
    rw [hcontr.2] at hdown
    exact hblocked en hdown hcontr

/-- Claim C1 witness: on input `'12'` the string span `[0,4)` is accepted
at priority 1 and survives to the final table; the number candidate
`[1,3)` (the digits inside the quotes) intersects it and is discarded
entirely. -/
theorem claim_c1_witness :
    ((⟨0, 4, wrapEsc ['9', '2'] "'12'".toList, 1⟩ : SpanEntry) ∈
      mapAfter "'12'".toList 1) ∧
    ((⟨0, 4, wrapEsc ['9', '2'] "'12'".toList, 1⟩ : SpanEntry) ∈
      mapAfter "'12'".toList 5) ∧
    ((1, 3) ∈ stageMatches 2 "'12'".toList) ∧
    (∀ en ∈ buildMatches "'12'".toList, ¬(en.start = 1 ∧ en.prio = 2)) := by
  refine ⟨by decide, ?_, by decide, ?_⟩
  · exact (claim_c1 "'12'".toList).1 1 5 (by omega) (by omega) _ (by decide)
  · exact (claim_c1 "'12'".toList).2.2 2 (by omega) (by omega) (1, 3) (by decide)
      ⟨⟨0, 4, wrapEsc ['9', '2'] "'12'".toList, 1⟩, by decide, by decide, by decide⟩

/-- Claim C2: the accepted span table built by highlight_syntax contains
no two distinct overlapping entries: for any two accepted spans A ≠ B,
either A ends at or before B starts or vice versa. -/
theorem claim_c2 (text : Text) (A B : SpanEntry) (hA : A ∈ buildMatches text)
    (hB : B ∈ buildMatches text) (hne : A ≠ B) :
    A.stop ≤ B.start ∨ B.stop ≤ A.start := by
  have hpw : (buildMatches text).Pairwise
      (fun a b => a.stop ≤ b.start ∨ b.stop ≤ a.start) :=
    (buildMatches_inv text).disj.imp (fun h => Or.inl h)
  exact List.Pairwise.forall (fun _ _ h => Or.symm h) hpw hA hB hne

/-- Claim C2 witness: on input `key: 42` the key span `[0,4)` and the
number span `[5,7)` are both accepted and do not overlap. -/
theorem claim_c2_witness :
    ((⟨0, 4, keyColor "key:".toList, 4⟩ : SpanEntry) ∈
      buildMatches "key: 42".toList) ∧
    ((⟨5, 7, numberColor "42".toList, 2⟩ : SpanEntry) ∈
      buildMatches "key: 42".toList) ∧
    ((4 : Nat) ≤ 5 ∨ (7 : Nat) ≤ 0) := by
  refine ⟨by decide, by decide, ?_⟩
  exact claim_c2 "key: 42".toList ⟨0, 4, keyColor "key:".toList, 4⟩
    ⟨5, 7, numberColor "42".toList, 2⟩ (by decide) (by decide) (by decide)

/-- Claim C3 counterexample: the claim as stated fails for inputs that
already contain a terminal escape sequence.  For input `\x1b[0m`,
highlight_syntax returns the input unchanged, and stripping all escape
sequences from it yields the empty string, not the input. -/
theorem claim_c3_counterexample :
    stripAnsi ( highlight_syntax ("\x1b[0m".toList)) ≠ "\x1b[0m".toList := by
  have h1 : highlight_syntax ("\x1b[0m".toList) = "\x1b[0m".toList := by decide
  have h2 : ("\x1b[0m".toList : Text) = mkEsc ['0'] ++ [] := by decide
  rw [h1, h2, stripAnsi_mkEsc ['0'] [] (by unfold paramsOk; decide)]
  rw [show stripAnsi [] = [] by simp [stripAnsi]]
  decide

/-- Claim C3 (amended): for every text that contains no terminal escape
sequence, stripping all terminal escape sequences from
highlight_syntax(T) yields exactly T — rendering copies every character
of the input, in order, inserting only escape sequences. -/
theorem claim_c3 (text : Text) (hclean : contains_ansi_codes text = false) :
    stripAnsi ( highlight_syntax text) = text := by
  by_cases hemp : text.isEmpty = true
  · have hnil : text = [] := by simpa using hemp
    subst hnil
    rw [show highlight_syntax [] = [] from rfl]
    simp [stripAnsi]
  · have hne : text.isEmpty = false := by simpa using hemp
    rw [highlight_eq_render text hne hclean]
    have := strip_render text hclean (buildMatches text) 0 (Nat.zero_le _)
      (chainEntries_build text)
    simpa using this

/-- Claim C3 witness at the escape-free input `key: 42`. -/
theorem claim_c3_witness :
    contains_ansi_codes ("key: 42".toList) = false ∧
    stripAnsi ( highlight_syntax ("key: 42".toList)) = "key: 42".toList :=
  ⟨by decide, claim_c3 "key: 42".toList (by decide)⟩

/-- Claim C4: highlight_syntax is idempotent on every input: once the
first pass produced escape sequences (or changed nothing), the second
pass is a no-op passthrough. -/
theorem claim_c4 (text : Text) :
    highlight_syntax ( highlight_syntax text) = highlight_syntax text := by
  by_cases hguard : (text.isEmpty || contains_ansi_codes text) = true
  · have hT : highlight_syntax text = text := by
      show (if text.isEmpty || contains_ansi_codes text then text
        else render text 0 (buildMatches text)) = text
      rw [hguard]
      rfl
    rw [hT]
    exact hT
  · have hguard' : (text.isEmpty || contains_ansi_codes text) = false := by
      simpa using hguard
    rw [Bool.or_eq_false_iff] at hguard'
    have hT : highlight_syntax text = render text 0 (buildMatches text) :=
      highlight_eq_render text hguard'.1 hguard'.2
    cases hbm : buildMatches text with
    | nil =>
      have hTT : highlight_syntax text = text := by
        rw [hT, hbm]
        simp [render]
      rw [hTT]
      exact hTT
    | cons en rest =>
      have hcontains : contains_ansi_codes ( highlight_syntax text) = true := by
        rw [hT, hbm]
        exact render_contains text en rest
          (buildMatches_replShape text en (by rw [hbm]; exact List.mem_cons_self _ _))
      show (if ( highlight_syntax text).isEmpty ||
          contains_ansi_codes ( highlight_syntax text) then highlight_syntax text
        else render ( highlight_syntax text) 0
          (buildMatches ( highlight_syntax text))) = highlight_syntax text
      rw [hcontains, Bool.or_true]
      rfl

/-- Claim C5: in the log_impl macro, a message body longer than 1000
units bypasses highlighting entirely and is passed through unchanged. -/
theorem claim_c5 (text : Text) (h : 1000 < text.length) :
    log_impl_highlighted_text text = text := by
  unfold log_impl_highlighted_text
  rw [if_pos h]

/-- Claim C5 witness: 1001 repeated characters are passed through. -/
theorem claim_c5_witness :
    1000 < (List.replicate 1001 'a').length ∧
    log_impl_highlighted_text (List.replicate 1001 'a') =
      List.replicate 1001 'a' :=
  ⟨by rw [List.length_replicate]; omega, claim_c5 _ (by rw [List.length_replicate]; omega)⟩

/-- Claim C6 counterexample: on input `key:` the rendered replacement is
`\x1b[96mkey:\x1b[0m` — the colon sits inside the colored region,
immediately before the reset sequence, not after the reset as claimed. -/
theorem claim_c6_counterexample :
    highlight_syntax ("key:".toList) =
      mkEsc ['9', '6'] ++ ("key".toList ++ ':' :: resetSeq) ∧
    highlight_syntax ("key:".toList) ≠
      mkEsc ['9', '6'] ++ "key".toList ++ resetSeq ++ [':'] :=
  ⟨by decide, by decide⟩

/-- Claim C6 (amended): every accepted key-label match renders as the
key-label color prefix, then the identifier, then the colon followed
immediately by the reset sequence — i.e. the identifier and the colon are
wrapped in color together, with the colon before the reset, not appended
outside it. -/
theorem claim_c6 (text : Text) (en : SpanEntry) (hen : en ∈ buildMatches text)
    (hprio : en.prio = 4) :
    ∃ ident, txtSlice text en.start en.stop = ident ++ [':'] ∧
      en.repl = mkEsc ['9', '6'] ++ (ident ++ ':' :: resetSeq) := by
  have hinv := buildMatches_inv text
  have hrepl := hinv.repl en hen
  rw [hprio] at hrepl
  obtain ⟨-, -, hsrc⟩ := hinv.src en hen
  rw [hprio] at hsrc
  obtain ⟨wr, hwrpos, hstop, hcolon, -⟩ := cand_key_facts text en.start en.stop hsrc
  have hwf := hinv.wf en hen
  have hbound := hinv.bound en hen
  have hlen : (txtSlice text en.start en.stop).length = en.stop - en.start :=
    txtSlice_length text en.start en.stop (Nat.le_of_lt hwf) hbound
  have hgetlast : (txtSlice text en.start en.stop).get?
      ((txtSlice text en.start en.stop).length - 1) = some ':' := by
    rw [hlen, show en.stop - en.start - 1 = wr by omega,
      txtSlice_get? text en.start en.stop wr (by omega)]
    exact hcolon
  have hne : txtSlice text en.start en.stop ≠ [] := by
    intro habs
    rw [habs] at hlen
    simp at hlen
    omega
  refine ⟨(txtSlice text en.start en.stop).dropLast,
    (dropLast_append_last _ ':' hgetlast hne).symm, ?_⟩
  rw [hrepl]
  rfl

/-- Claim C6 witness: the key entry accepted on input `key:`. -/
theorem claim_c6_witness :
    ((⟨0, 4, keyColor "key:".toList, 4⟩ : SpanEntry) ∈
      buildMatches "key:".toList) ∧
    ∃ ident, txtSlice "key:".toList 0 4 = ident ++ [':'] ∧
      keyColor "key:".toList = mkEsc ['9', '6'] ++ (ident ++ ':' :: resetSeq) :=
  ⟨by decide,
    claim_c6 "key:".toList ⟨0, 4, keyColor "key:".toList, 4⟩ (by decide) rfl⟩

/-- Claim C7: contains_ansi_codes returns true exactly when the input
contains a terminal escape sequence (the 0x1b byte, `[`, parameter bytes
and a final letter), and highlight_syntax returns such input unchanged. -/
theorem claim_c7 (text : Text) :
    (contains_ansi_codes text = true ↔ HasAnsiSeq text) ∧
    (contains_ansi_codes text = true → highlight_syntax text = text) :=
  ⟨⟨contains_hasAnsiSeq text, hasAnsiSeq_contains text⟩, highlight_of_contains text⟩

/-- Claim C7 witness at the input `\x1b[92m`. -/
theorem claim_c7_witness :
    contains_ansi_codes ("\x1b[92m".toList) = true ∧
    HasAnsiSeq ("\x1b[92m".toList) ∧
    highlight_syntax ("\x1b[92m".toList) = "\x1b[92m".toList :=
  ⟨by decide, (claim_c7 "\x1b[92m".toList).1.mp (by decide),
    (claim_c7 "\x1b[92m".toList).2 (by decide)⟩

/-- Claim C8: every accepted boolean/null-like match of `true` or `false`
is rendered with the bold boolean prefix, every other accepted match of
the classifier with the dim null-like prefix; in particular input
`true false null` yields exactly three matches, the first two bold and
the third dim. -/
theorem claim_c8 :
    (∀ (text : Text) (en : SpanEntry), en ∈ buildMatches text → en.prio = 3 →
      ((txtSlice text en.start en.stop = "true".toList ∨
        txtSlice text en.start en.stop = "false".toList) →
        en.repl = wrapEsc ['9', '3', ';', '1'] (txtSlice text en.start en.stop)) ∧
      (¬(txtSlice text en.start en.stop = "true".toList ∨
        txtSlice text en.start en.stop = "false".toList) →
        en.repl = wrapEsc ['9', '0'] (txtSlice text en.start en.stop))) ∧
    buildMatches ("true false null".toList) =
      [⟨0, 4, wrapEsc ['9', '3', ';', '1'] "true".toList, 3⟩,
       ⟨5, 10, wrapEsc ['9', '3', ';', '1'] "false".toList, 3⟩,
       ⟨11, 15, wrapEsc ['9', '0'] "null".toList, 3⟩] := by
  constructor
  · intro text en hen hprio
    have hrepl := (buildMatches_inv text).repl en hen
    rw [hprio] at hrepl
    constructor
    · intro hcond
      rw [hrepl]
      show booleanColor _ = _
      simp only [booleanColor]
      rw [if_pos (by rcases hcond with h | h <;> simp [h])]
    · intro hcond
      rw [hrepl]
      show booleanColor _ = _
      simp only [booleanColor]
      rw [if_neg (by simp only [Bool.or_eq_true, decide_eq_true_eq]; exact hcond)]
  · decide

/-- Claim C8 witness: the dim-tagged `null` entry of `true false null`. -/
theorem claim_c8_witness :
    ((⟨11, 15, wrapEsc ['9', '0'] "null".toList, 3⟩ : SpanEntry) ∈
      buildMatches "true false null".toList) ∧
    (⟨11, 15, wrapEsc ['9', '0'] "null".toList, 3⟩ : SpanEntry).repl =
      wrapEsc ['9', '0'] (txtSlice "true false null".toList 11 15) :=
  ⟨by decide,
    (claim_c8.1 "true false null".toList _ (by decide) rfl).2 (by decide)⟩

/-- Claim C9: parsing an unrecognized level name reports an error and
leaves the stored level unchanged; parsing a recognized name succeeds and
stores the corresponding level's byte. -/
theorem claim_c9 (s : Text) (lvl : Nat) :
    (¬recognizedLevelName s →
      set_logging_level_from_str s lvl = (Except.error (), lvl)) ∧
    (recognizedLevelName s → ∃ l, LogLevel.from_str s = some l ∧
      set_logging_level_from_str s lvl = (Except.ok (), l.as_u8)) := by
  constructor
  · intro hrec
    have hnone : LogLevel.from_str s = none := by
      cases hfs : LogLevel.from_str s with
      | none => rfl
      | some l => exact absurd ((from_str_isSome_iff s).mp (by simp [hfs])) hrec
    unfold set_logging_level_from_str
    rw [hnone]
  · intro hrec
    have hsome := (from_str_isSome_iff s).mpr hrec
    cases hfs : LogLevel.from_str s with
    | none =>
      rw [hfs] at hsome
      simp at hsome
    | some l =>
      refine ⟨l, rfl, ?_⟩
      unfold set_logging_level_from_str
      rw [hfs]
      rfl

/-- Claim C9 witness: `bogus` is rejected without touching the level;
`WARN` (case-insensitively) is accepted and stores 3. -/
theorem claim_c9_witness :
    ¬recognizedLevelName ("bogus".toList) ∧
    set_logging_level_from_str ("bogus".toList) 5 = (Except.error (), 5) ∧
    recognizedLevelName ("WARN".toList) ∧
    ∃ l, LogLevel.from_str ("WARN".toList) = some l ∧
      set_logging_level_from_str ("WARN".toList) 5 = (Except.ok (), l.as_u8) :=
  ⟨by unfold recognizedLevelName; decide,
    (claim_c9 "bogus".toList 5).1 (by unfold recognizedLevelName; decide),
    by unfold recognizedLevelName; decide,
    (claim_c9 "WARN".toList 5).2 (by unfold recognizedLevelName; decide)⟩

/-- Claim C10: a stored LEVEL byte outside 1..=5 makes get_logging_level
fall back to Info; every byte in range round-trips:
from_u8 (as_u8 l) = some l, and reading a stored valid level returns it. -/
theorem claim_c10 :
    (∀ b : Nat, (b < 1 ∨ 5 < b) → get_logging_level b = LogLevel.Info) ∧
    (∀ l : LogLevel, LogLevel.from_u8 (LogLevel.as_u8 l) = some l) ∧
    (∀ l : LogLevel, get_logging_level (LogLevel.as_u8 l) = l) := by
  refine ⟨?_, ?_, ?_⟩
  · intro b hb
    match b, hb with
    | 0, _ => rfl
    | 1, h => exact absurd h (by omega)
    | 2, h => exact absurd h (by omega)
    | 3, h => exact absurd h (by omega)
    | 4, h => exact absurd h (by omega)
    | 5, h => exact absurd h (by omega)
    | (n + 6), _ => rfl
  · intro l
    cases l <;> rfl
  · intro l
    cases l <;> rfl

/-- Claim C10 witness at the out-of-range bytes 0 and 6 and two levels. -/
theorem claim_c10_witness :
    get_logging_level 0 = LogLevel.Info ∧ get_logging_level 6 = LogLevel.Info ∧
    LogLevel.from_u8 (LogLevel.as_u8 LogLevel.Debug) = some LogLevel.Debug ∧
    get_logging_level (LogLevel.as_u8 LogLevel.Warn) = LogLevel.Warn :=
  ⟨claim_c10.1 0 (by omega), claim_c10.1 6 (by omega),
    claim_c10.2.1 LogLevel.Debug, claim_c10.2.2 LogLevel.Warn⟩
